import Mathlib

/-
Verification development for the literature aggregation pipeline
(api/core/tools/provider/builtin/literature/tools/literature.py and the
source adapters it builds on: wos/tools/wos_search.py,
semantic/tools/semantic_bulk_search.py, semantic/tools/semantic_scholar.py).

Python records are dicts with string keys; we embed them as insertion-ordered
association lists of (key, value) pairs, which matches CPython dict semantics:
lookup finds the (unique) entry, assignment to an existing key updates the
value in place, assignment to a fresh key appends at the end, and
dict.values() iterates in insertion order.  Python truthiness of the values
that occur in these records (None, str, int, list) is modelled by Val.truthy.
-/

set_option maxHeartbeats 1000000
set_option maxRecDepth 4000
set_option linter.unusedVariables false

namespace LitAgg

/-- Python values that occur in the literature records: None, strings,
integers (order fields, years) and lists (publication types). -/
inductive Val where
  | vnone : Val
  | vstr : String → Val
  | vint : Int → Val
  | vlist : List Val → Val

/-- Python truthiness for the value shapes above: None, the empty string,
zero and the empty list are falsy. -/
def Val.truthy : Val → Bool
  | .vnone => false
  | .vstr s => decide (s ≠ "")
  | .vint n => decide (n ≠ 0)
  | .vlist l => !l.isEmpty

/-- A record is a Python dict: an insertion-ordered association list. -/
abbrev Rec := List (String × Val)

/-- Lookup in an association list (Python `d.get(k)` / `d[k]`). -/
def alGet {α : Type} : List (String × α) → String → Option α
  | [], _ => none
  | p :: rest, k => if p.1 = k then some p.2 else alGet rest k

/-- Assignment `d[k] = v` on an insertion-ordered association list: update in
place if the key is present, append otherwise. -/
def alSet {α : Type} : List (String × α) → String → α → List (String × α)
  | [], k, v => [(k, v)]
  | p :: rest, k, v => if p.1 = k then (p.1, v) :: rest else p :: alSet rest k v

/-- The key list of an association list (Python `d.keys()`). -/
def alKeys {α : Type} : List (String × α) → List String
  | [] => []
  | p :: rest => p.1 :: alKeys rest

/-- A well-formed record has no duplicate keys, as every Python dict does. -/
abbrev wfRec (r : Rec) : Prop := (alKeys r).Nodup

@[simp] theorem alGet_nil {α : Type} (k : String) :
    alGet ([] : List (String × α)) k = none := rfl

theorem alGet_cons {α : Type} (p : String × α) (rest : List (String × α)) (k : String) :
    alGet (p :: rest) k = if p.1 = k then some p.2 else alGet rest k := rfl

@[simp] theorem alKeys_nil {α : Type} : alKeys ([] : List (String × α)) = [] := rfl

@[simp] theorem alKeys_cons {α : Type} (p : String × α) (rest : List (String × α)) :
    alKeys (p :: rest) = p.1 :: alKeys rest := rfl

theorem alKeys_append {α : Type} (m1 m2 : List (String × α)) :
    alKeys (m1 ++ m2) = alKeys m1 ++ alKeys m2 := by
  induction m1 with
  | nil => simp
  | cons p rest ih => simp [ih]

theorem alGet_alSet {α : Type} (m : List (String × α)) (k k2 : String) (v : α) :
    alGet (alSet m k v) k2 = if k = k2 then some v else alGet m k2 := by
  induction m with
  | nil => simp [alSet, alGet]
  | cons p rest ih =>
    by_cases hp : p.1 = k
    · subst hp
      simp only [alSet, if_pos rfl]
      by_cases hk : p.1 = k2
      · simp [alGet, hk]
      · simp [alGet, hk]
    · simp only [alSet, if_neg hp]
      by_cases hk2 : p.1 = k2
      · have hkk : ¬ k = k2 := by
          intro h
          exact hp (by rw [h, hk2])
        simp [alGet, hk2, hkk]
      · simp [alGet, hk2, ih]

theorem alSet_self {α : Type} (m : List (String × α)) (k : String) (v : α)
    (h : alGet m k = some v) : alSet m k v = m := by
  induction m with
  | nil => simp [alGet] at h
  | cons p rest ih =>
    by_cases hp : p.1 = k
    · subst hp
      have hv : p.2 = v := by
        rw [alGet_cons, if_pos rfl] at h
        exact Option.some.inj h
      rw [show v = p.2 from hv.symm]
      simp [alSet]
    · simp only [alGet, if_neg hp] at h
      simp [alSet, hp, ih h]

theorem alGet_eq_none_of_not_mem {α : Type} (m : List (String × α)) (k : String)
    (h : k ∉ alKeys m) : alGet m k = none := by
  induction m with
  | nil => rfl
  | cons p rest ih =>
    simp only [alKeys_cons, List.mem_cons, not_or] at h
    have hne : ¬ p.1 = k := fun hh => h.1 hh.symm
    simp [alGet, hne, ih h.2]

theorem alGet_isSome_of_mem {α : Type} (m : List (String × α)) (k : String)
    (h : k ∈ alKeys m) : (alGet m k).isSome := by
  induction m with
  | nil => simp at h
  | cons p rest ih =>
    by_cases hp : p.1 = k
    · simp [alGet, hp]
    · simp only [alKeys_cons, List.mem_cons] at h
      rcases h with h | h
      · exact absurd h.symm hp
      · simpa [alGet, hp] using ih h

theorem mem_of_alGet_isSome {α : Type} (m : List (String × α)) (k : String)
    (h : (alGet m k).isSome) : k ∈ alKeys m := by
  by_contra hc
  rw [alGet_eq_none_of_not_mem m k hc] at h
  simp at h

theorem alKeys_alSet_mem {α : Type} (m : List (String × α)) (k : String) (v : α)
    (h : k ∈ alKeys m) : alKeys (alSet m k v) = alKeys m := by
  induction m with
  | nil => simp at h
  | cons p rest ih =>
    by_cases hp : p.1 = k
    · simp [alSet, hp]
    · simp only [alKeys_cons, List.mem_cons] at h
      have h2 : k ∈ alKeys rest := by
        rcases h with h | h
        · exact absurd h.symm hp
        · exact h
      simp [alSet, hp, ih h2]

theorem alSet_not_mem {α : Type} (m : List (String × α)) (k : String) (v : α)
    (h : k ∉ alKeys m) : alSet m k v = m ++ [(k, v)] := by
  induction m with
  | nil => rfl
  | cons p rest ih =>
    simp only [alKeys_cons, List.mem_cons, not_or] at h
    have hne : ¬ p.1 = k := fun hh => h.1 hh.symm
    simp [alSet, hne, ih h.2]

theorem alExt {α : Type} (m1 m2 : List (String × α))
    (h1 : (alKeys m1).Nodup) (hk : alKeys m1 = alKeys m2)
    (hget : ∀ k, alGet m1 k = alGet m2 k) : m1 = m2 := by
  induction m1 generalizing m2 with
  | nil =>
    cases m2 with
    | nil => rfl
    | cons q t2 => simp at hk
  | cons p t1 ih =>
    cases m2 with
    | nil => simp at hk
    | cons q t2 =>
      simp only [alKeys_cons, List.cons.injEq] at hk
      simp only [alKeys_cons, List.nodup_cons] at h1
      have hv : p.2 = q.2 := by
        have hg := hget p.1
        rw [alGet_cons, alGet_cons, if_pos rfl, if_pos hk.1.symm] at hg
        exact Option.some.inj hg
      have htails : ∀ k, alGet t1 k = alGet t2 k := by
        intro k
        by_cases hpk : p.1 = k
        · subst hpk
          rw [alGet_eq_none_of_not_mem t1 p.1 h1.1,
              alGet_eq_none_of_not_mem t2 p.1 (hk.2 ▸ h1.1)]
        · have hg := hget k
          have hq : ¬ q.1 = k := by
            rw [← hk.1]
            exact hpk
          rw [alGet_cons, alGet_cons, if_neg hpk, if_neg hq] at hg
          exact hg
      have ht : t1 = t2 := ih t2 h1.2 hk.2 htails
      calc p :: t1 = (p.1, p.2) :: t1 := by rw [Prod.mk.eta]
        _ = (q.1, q.2) :: t2 := by rw [hk.1, hv, ht]
        _ = q :: t2 := by rw [Prod.mk.eta]

/-- Truthiness of an optional value: `d.get(k)` is falsy when the key is
absent (None) or the stored value is falsy. -/
def truthyO : Option Val → Bool
  | none => false
  | some v => v.truthy

@[simp] theorem truthyO_none : truthyO none = false := rfl

@[simp] theorem truthyO_some (v : Val) : truthyO (some v) = v.truthy := rfl

/-- Python `str.lower()`, modelled per character; every identifier handled
by this pipeline is ASCII, where the two functions agree. -/
def pyLower (s : String) : String := String.mk (s.data.map Char.toLower)

/-- Python `value.lower()` for the string stored in an optional value.  The
source only ever lowers truthy `doi` / `pmid` / `title` fields, which are
strings in every adapter; non-string values (where CPython would raise
AttributeError, an unreachable case here) are mapped to `""`. -/
def lowerKey : Option Val → String
  | some (.vstr s) => pyLower s
  | _ => ""

/-- Python `entry.get(k)` with an explicit default. -/
def getDefault (r : Rec) (k : String) : Val := (alGet r k).getD Val.vnone

/-- Deduplication key of a record, literature.py lines 103-116: the
lower-cased doi when truthy, else the lower-cased pmid when truthy, else the
lower-cased title when truthy, else no key (the record is skipped). -/
def dedupKey (e : Rec) : Option String :=
  if truthyO (alGet e "doi") then some (lowerKey (alGet e "doi"))
  else if truthyO (alGet e "pmid") then some (lowerKey (alGet e "pmid"))
  else if truthyO (alGet e "title") then some (lowerKey (alGet e "title"))
  else none

/-- Fresh merged entry, literature.py lines 124-128: a copy of the entry
whose `abstract` field is forced to be present (set to `entry.get('abstract')`,
which is None when the entry has no abstract field). -/
def newEntry (e : Rec) : Rec := alSet e "abstract" (getDefault e "abstract")

/-- Collision update, literature.py lines 118-122: for every (k, v) item of
the incoming entry, overwrite the existing entry at k when k is absent there
or its current value is falsy. -/
def updateEntry (existing incoming : Rec) : Rec :=
  incoming.foldl
    (fun acc p => if truthyO (alGet acc p.1) then acc else alSet acc p.1 p.2) existing

/-- The merged dict of literature.py lines 100-128, keyed by `dedupKey`. -/
abbrev MergedMap := List (String × Rec)

/-- One iteration of the merge loop, literature.py lines 102-128. -/
def mergeStep (m : MergedMap) (e : Rec) : MergedMap :=
  match dedupKey e with
  | none => m
  | some k =>
    match alGet m k with
    | some ex => alSet m k (updateEntry ex e)
    | none => alSet m k (newEntry e)

/-- literature.py lines 95-136: concatenate the two lists, fold them into the
merged dict and return its values in key-insertion order. -/
def merge_and_deduplicate (listA listB : List Rec) : List Rec :=
  ((listA ++ listB).foldl mergeStep []).map Prod.snd

theorem updateEntry_nil (ex : Rec) : updateEntry ex [] = ex := rfl

theorem updateEntry_cons (ex : Rec) (p : String × Val) (rest : Rec) :
    updateEntry ex (p :: rest) =
      updateEntry (if truthyO (alGet ex p.1) then ex else alSet ex p.1 p.2) rest := rfl

/-- The per-field effect of folding a sequence of overwrite-if-falsy updates. -/
def fieldUpd (a : Option Val) (l : List Val) : Option Val :=
  l.foldl (fun acc v => if truthyO acc then acc else some v) a

/-- All values stored under a field name, in order (a well-formed record has
at most one). -/
def valsOf (r : Rec) (f : String) : List Val :=
  (r.filter (fun p => decide (p.1 = f))).map Prod.snd

@[simp] theorem fieldUpd_nil (a : Option Val) : fieldUpd a [] = a := rfl

theorem fieldUpd_cons (a : Option Val) (v : Val) (l : List Val) :
    fieldUpd a (v :: l) = fieldUpd (if truthyO a then a else some v) l := rfl

theorem fieldUpd_append (a : Option Val) (l1 l2 : List Val) :
    fieldUpd a (l1 ++ l2) = fieldUpd (fieldUpd a l1) l2 := by
  simp [fieldUpd, List.foldl_append]

theorem fieldUpd_of_truthy (a : Option Val) (l : List Val) (h : truthyO a = true) :
    fieldUpd a l = a := by
  induction l with
  | nil => rfl
  | cons v t ih => rw [fieldUpd_cons, if_pos h, ih]

theorem truthyO_fieldUpd (a : Option Val) (l : List Val) :
    truthyO (fieldUpd a l) = (truthyO a || l.any Val.truthy) := by
  induction l generalizing a with
  | nil => simp
  | cons v t ih =>
    rw [fieldUpd_cons]
    by_cases h : truthyO a = true
    · simp [h, ih, if_pos h]
    · simp only [Bool.not_eq_true] at h
      simp [h, ih, List.any_cons]

theorem isSome_fieldUpd (a : Option Val) (l : List Val) :
    (fieldUpd a l).isSome = (a.isSome || !l.isEmpty) := by
  induction l generalizing a with
  | nil => simp
  | cons v t ih =>
    rw [fieldUpd_cons]
    by_cases h : truthyO a = true
    · have ha : a.isSome := by
        cases a with
        | none => simp [truthyO] at h
        | some x => simp
      simp [if_pos h, ih, ha]
    · simp only [Bool.not_eq_true] at h
      simp [h, ih]

theorem fieldUpd_all_falsy (a : Option Val) (l : List Val)
    (hl : ∀ v ∈ l, v.truthy = false) (ha : truthyO a = false) :
    fieldUpd a l = (l.getLast?).elim a some := by
  induction l generalizing a with
  | nil => simp
  | cons v t ih =>
    rw [fieldUpd_cons, if_neg (by rw [ha]; exact Bool.false_ne_true)]
    have hv : Val.truthy v = false := hl v (List.mem_cons_self v t)
    have ht : ∀ w ∈ t, Val.truthy w = false := fun w hw => hl w (List.mem_cons_of_mem v hw)
    rw [ih (some v) ht (by simpa using hv)]
    cases t with
    | nil => simp
    | cons w u =>
      rw [List.getLast?_cons_cons]
      cases hgl : (w :: u).getLast? with
      | none => simp [List.getLast?_eq_none_iff] at hgl
      | some x => simp

@[simp] theorem valsOf_nil (f : String) : valsOf [] f = [] := rfl

theorem valsOf_cons (p : String × Val) (rest : Rec) (f : String) :
    valsOf (p :: rest) f = if p.1 = f then p.2 :: valsOf rest f else valsOf rest f := by
  by_cases h : p.1 = f <;> simp [valsOf, List.filter_cons, h]

theorem valsOf_eq_nil_of_not_mem (r : Rec) (f : String) (h : f ∉ alKeys r) :
    valsOf r f = [] := by
  induction r with
  | nil => rfl
  | cons p rest ih =>
    simp only [alKeys_cons, List.mem_cons, not_or] at h
    have hne : ¬ p.1 = f := fun hh => h.1 hh.symm
    rw [valsOf_cons, if_neg hne, ih h.2]

theorem valsOf_wf (r : Rec) (f : String) (hwf : wfRec r) :
    valsOf r f = (alGet r f).elim [] (fun v => [v]) := by
  induction r with
  | nil => simp
  | cons p rest ih =>
    simp only [wfRec, alKeys_cons, List.nodup_cons] at hwf
    by_cases h : p.1 = f
    · subst h
      rw [valsOf_cons, if_pos rfl, alGet_cons, if_pos rfl,
          valsOf_eq_nil_of_not_mem rest p.1 hwf.1]
      simp
    · rw [valsOf_cons, if_neg h, alGet_cons, if_neg h, ih hwf.2]

/-- Field-level characterization of `updateEntry`. -/
theorem alGet_updateEntry (ex inc : Rec) (f : String) :
    alGet (updateEntry ex inc) f = fieldUpd (alGet ex f) (valsOf inc f) := by
  induction inc generalizing ex with
  | nil => simp [updateEntry_nil]
  | cons p rest ih =>
    rw [updateEntry_cons, ih, valsOf_cons]
    by_cases hpf : p.1 = f
    · subst hpf
      rw [if_pos rfl, fieldUpd_cons]
      by_cases ht : truthyO (alGet ex p.1) = true
      · rw [if_pos ht, if_pos ht]
      · simp only [Bool.not_eq_true] at ht
        rw [if_neg (by rw [ht]; exact Bool.false_ne_true),
            if_neg (by rw [ht]; exact Bool.false_ne_true)]
        congr 1
        rw [alGet_alSet, if_pos rfl]
    · rw [if_neg hpf]
      congr 1
      by_cases ht : truthyO (alGet ex p.1) = true
      · rw [if_pos ht]
      · rw [if_neg ht, alGet_alSet, if_neg hpf]

/-- `newEntry` only touches the abstract field. -/
theorem alGet_newEntry (e : Rec) (f : String) :
    alGet (newEntry e) f =
      if f = "abstract" then some (getDefault e "abstract") else alGet e f := by
  unfold newEntry
  rw [alGet_alSet]
  by_cases h : f = "abstract"
  · rw [if_pos h, if_pos h.symm]
  · rw [if_neg h, if_neg (fun hh => h hh.symm)]

theorem dedupKey_newEntry (e : Rec) : dedupKey (newEntry e) = dedupKey e := by
  unfold dedupKey
  rw [alGet_newEntry e "doi", alGet_newEntry e "pmid", alGet_newEntry e "title"]
  simp

theorem truthy_getDefault (r : Rec) (k : String) :
    Val.truthy (getDefault r k) = truthyO (alGet r k) := by
  unfold getDefault
  cases alGet r k with
  | none => rfl
  | some v => rfl

theorem mergeStep_none (m : MergedMap) (e : Rec) (h : dedupKey e = none) :
    mergeStep m e = m := by
  simp [mergeStep, h]

theorem mergeStep_new (m : MergedMap) (e : Rec) (k : String)
    (hk : dedupKey e = some k) (hm : alGet m k = none) :
    mergeStep m e = alSet m k (newEntry e) := by
  simp [mergeStep, hk, hm]

theorem mergeStep_update (m : MergedMap) (e : Rec) (k : String) (ex : Rec)
    (hk : dedupKey e = some k) (hm : alGet m k = some ex) :
    mergeStep m e = alSet m k (updateEntry ex e) := by
  simp [mergeStep, hk, hm]

/-- Two colliding records merge into a single entry. -/
theorem merge_two_collide (r1 r2 : Rec) (k : String)
    (h1 : dedupKey r1 = some k) (h2 : dedupKey r2 = some k) :
    merge_and_deduplicate [r1] [r2] = [updateEntry (newEntry r1) r2] := by
  have s1 : mergeStep [] r1 = [(k, newEntry r1)] := by
    rw [mergeStep_new [] r1 k h1 rfl]
    rfl
  have s2 : mergeStep [(k, newEntry r1)] r2 = [(k, updateEntry (newEntry r1) r2)] := by
    rw [mergeStep_update [(k, newEntry r1)] r2 k (newEntry r1) h2
        (by rw [alGet_cons, if_pos rfl])]
    simp [alSet]
  simp only [merge_and_deduplicate, List.singleton_append, List.foldl_cons,
    List.foldl_nil, s1, s2, List.map_cons, List.map_nil]

/-- Two records with distinct keys stay separate. -/
theorem merge_two_separate (r1 r2 : Rec) (k1 k2 : String)
    (h1 : dedupKey r1 = some k1) (h2 : dedupKey r2 = some k2) (hne : k1 ≠ k2) :
    merge_and_deduplicate [r1] [r2] = [newEntry r1, newEntry r2] := by
  have s1 : mergeStep [] r1 = [(k1, newEntry r1)] := by
    rw [mergeStep_new [] r1 k1 h1 rfl]
    rfl
  have s2 : mergeStep [(k1, newEntry r1)] r2 =
      [(k1, newEntry r1), (k2, newEntry r2)] := by
    rw [mergeStep_new [(k1, newEntry r1)] r2 k2 h2 (by rw [alGet_cons, if_neg hne]; rfl)]
    simp [alSet, hne]
  simp only [merge_and_deduplicate, List.singleton_append, List.foldl_cons,
    List.foldl_nil, s1, s2, List.map_cons, List.map_nil]

/-- C1: the deduplication key is assigned by priority doi > pmid > title
(each lower-cased), and a record carrying both a doi and a pmid is keyed by
its doi, so it does not collide with a record that shares its pmid but has a
different or absent doi — AMENDED: provided the other record's own key
differs from this record's lower-cased doi (the counterexample below shows
the unconditional claim fails when the shared pmid equals the doi as a
string). -/
theorem dedupKey_priority_separation (r1 r2 : Rec) (d p k2 : String)
    (hd : alGet r1 "doi" = some (Val.vstr d)) (hdt : d ≠ "")
    (hp : alGet r1 "pmid" = some (Val.vstr p)) (hpt : p ≠ "")
    (hk2 : dedupKey r2 = some k2) (hne : k2 ≠ pyLower d) :
    (∀ r : Rec, truthyO (alGet r "doi") = true →
        dedupKey r = some (lowerKey (alGet r "doi"))) ∧
    (∀ r : Rec, truthyO (alGet r "doi") = false → truthyO (alGet r "pmid") = true →
        dedupKey r = some (lowerKey (alGet r "pmid"))) ∧
    (∀ r : Rec, truthyO (alGet r "doi") = false → truthyO (alGet r "pmid") = false →
        truthyO (alGet r "title") = true →
        dedupKey r = some (lowerKey (alGet r "title"))) ∧
    dedupKey r1 = some (pyLower d) ∧
    merge_and_deduplicate [r1] [r2] = [newEntry r1, newEntry r2] := by
  have hpr1 : ∀ r : Rec, truthyO (alGet r "doi") = true →
      dedupKey r = some (lowerKey (alGet r "doi")) := by
    intro r h
    unfold dedupKey
    rw [if_pos h]
  have hkey1 : dedupKey r1 = some (pyLower d) := by
    rw [hpr1 r1 (by rw [hd]; simpa [Val.truthy] using hdt), hd]
    rfl
  refine ⟨hpr1, ?_, ?_, hkey1, ?_⟩
  · intro r h1 h2
    unfold dedupKey
    rw [if_neg (by rw [h1]; exact Bool.false_ne_true), if_pos h2]
  · intro r h1 h2 h3
    unfold dedupKey
    rw [if_neg (by rw [h1]; exact Bool.false_ne_true),
        if_neg (by rw [h2]; exact Bool.false_ne_true), if_pos h3]
  · exact merge_two_separate r1 r2 (pyLower d) k2 hkey1 hk2 (fun h => hne h.symm)

/-- Witness for C1 (amended): two records sharing pmid "31199361", the first
also carrying doi "10.1145/3292500.3330665", stay separate: the first is
keyed by its doi. -/
theorem dedupKey_priority_separation_witness :
    merge_and_deduplicate
        [[("doi", Val.vstr "10.1145/3292500.3330665"), ("pmid", Val.vstr "31199361"),
          ("title", Val.vstr "A")]]
        [[("pmid", Val.vstr "31199361"), ("title", Val.vstr "B")]] =
      [newEntry [("doi", Val.vstr "10.1145/3292500.3330665"),
          ("pmid", Val.vstr "31199361"), ("title", Val.vstr "A")],
       newEntry [("pmid", Val.vstr "31199361"), ("title", Val.vstr "B")]] :=
  (dedupKey_priority_separation
    [("doi", Val.vstr "10.1145/3292500.3330665"), ("pmid", Val.vstr "31199361"),
      ("title", Val.vstr "A")]
    [("pmid", Val.vstr "31199361"), ("title", Val.vstr "B")]
    "10.1145/3292500.3330665" "31199361" "31199361"
    (by rfl) (by decide) (by rfl) (by decide) (by decide) (by decide)).2.2.2.2

/-- Counterexample to C1 as stated: a record whose doi and pmid are both the
string "42" IS merged with a record that shares the pmid "42" and has no doi
at all, because the first record's doi-derived key equals the second
record's pmid-derived key. -/
theorem dedupKey_priority_separation_counterexample :
    (merge_and_deduplicate
        [[("doi", Val.vstr "42"), ("pmid", Val.vstr "42"), ("title", Val.vstr "a")]]
        [[("pmid", Val.vstr "42"), ("title", Val.vstr "b")]]).length = 1 := by
  decide

/-- C2: when two records collide on the same key, every field keeps the
existing value when it is truthy and takes the incoming value when it is
absent or falsy in the existing record; for two records sharing a doi where
only the first has a truthy abstract, the merged record carries that
abstract in either input order. -/
theorem merge_field_priority (r1 r2 : Rec) (k f : String) (v1 v2 : Val)
    (hwf1 : wfRec r1) (hwf2 : wfRec r2)
    (hk1 : dedupKey r1 = some k) (hk2 : dedupKey r2 = some k) :
    (merge_and_deduplicate [r1] [r2]).length = 1 ∧
    (alGet r1 f = some v1 → v1.truthy = true →
      alGet ((merge_and_deduplicate [r1] [r2]).headD []) f = some v1) ∧
    (alGet r2 f = some v2 → truthyO (alGet r1 f) = false →
      alGet ((merge_and_deduplicate [r1] [r2]).headD []) f = some v2) ∧
    (truthyO (alGet r1 "abstract") = true → truthyO (alGet r2 "abstract") = false →
      alGet ((merge_and_deduplicate [r1] [r2]).headD []) "abstract" = alGet r1 "abstract" ∧
      alGet ((merge_and_deduplicate [r2] [r1]).headD []) "abstract" = alGet r1 "abstract") := by
  have hm12 : merge_and_deduplicate [r1] [r2] = [updateEntry (newEntry r1) r2] :=
    merge_two_collide r1 r2 k hk1 hk2
  have hm21 : merge_and_deduplicate [r2] [r1] = [updateEntry (newEntry r2) r1] :=
    merge_two_collide r2 r1 k hk2 hk1
  refine ⟨by rw [hm12]; rfl, ?_, ?_, ?_⟩
  · intro hv ht
    rw [hm12]
    simp only [List.headD_cons]
    rw [alGet_updateEntry, alGet_newEntry]
    by_cases hf : f = "abstract"
    · rw [if_pos hf]
      have : getDefault r1 "abstract" = v1 := by
        unfold getDefault
        rw [← hf, hv]
        rfl
      rw [this, fieldUpd_of_truthy _ _ (by simpa using ht)]
    · rw [if_neg hf, hv, fieldUpd_of_truthy _ _ (by simpa using ht)]
  · intro hv hf1
    rw [hm12]
    simp only [List.headD_cons]
    rw [alGet_updateEntry, alGet_newEntry,
        valsOf_wf r2 f hwf2, hv]
    simp only [Option.elim_some]
    by_cases hf : f = "abstract"
    · rw [if_pos hf, fieldUpd_cons,
          if_neg (by rw [truthyO_some, truthy_getDefault, ← hf, hf1]; exact Bool.false_ne_true)]
      rfl
    · rw [if_neg hf, fieldUpd_cons, if_neg (by rw [hf1]; exact Bool.false_ne_true)]
      rfl
  · intro ha1 ha2
    obtain ⟨a1, hva1⟩ : ∃ a1, alGet r1 "abstract" = some a1 := by
      cases hx : alGet r1 "abstract" with
      | none => rw [hx] at ha1; simp [truthyO] at ha1
      | some y => exact ⟨y, rfl⟩
    have ha1t : a1.truthy = true := by
      rw [hva1] at ha1
      simpa using ha1
    constructor
    · rw [hm12]
      simp only [List.headD_cons]
      rw [alGet_updateEntry, alGet_newEntry, if_pos rfl]
      have hgd : getDefault r1 "abstract" = a1 := by
        unfold getDefault
        rw [hva1]
        rfl
      rw [hgd, fieldUpd_of_truthy _ _ (by simpa using ha1t), hva1]
    · rw [hm21]
      simp only [List.headD_cons]
      rw [alGet_updateEntry, alGet_newEntry, if_pos rfl,
          valsOf_wf r1 "abstract" hwf1, hva1]
      simp only [Option.elim_some]
      rw [fieldUpd_cons,
          if_neg (by rw [truthyO_some, truthy_getDefault, ha2]; exact Bool.false_ne_true)]
      rw [show fieldUpd (some a1) [] = some a1 from rfl]

/-- Witness for C2: records sharing doi key "10.1/x"; the merged record takes
the incoming falsy-field value "n" for the missing field "note", keeps the
truthy abstract "A" of the first record, in both input orders. -/
theorem merge_field_priority_witness :
    (merge_and_deduplicate [[("doi", Val.vstr "10.1/x"), ("abstract", Val.vstr "A")]]
        [[("doi", Val.vstr "10.1/X"), ("abstract", Val.vstr ""), ("note", Val.vstr "n")]]).length = 1 ∧
    alGet ((merge_and_deduplicate [[("doi", Val.vstr "10.1/x"), ("abstract", Val.vstr "A")]]
        [[("doi", Val.vstr "10.1/X"), ("abstract", Val.vstr ""), ("note", Val.vstr "n")]]).headD [])
      "note" = some (Val.vstr "n") ∧
    alGet ((merge_and_deduplicate [[("doi", Val.vstr "10.1/x"), ("abstract", Val.vstr "A")]]
        [[("doi", Val.vstr "10.1/X"), ("abstract", Val.vstr ""), ("note", Val.vstr "n")]]).headD [])
      "abstract" = some (Val.vstr "A") ∧
    alGet ((merge_and_deduplicate
        [[("doi", Val.vstr "10.1/X"), ("abstract", Val.vstr ""), ("note", Val.vstr "n")]]
        [[("doi", Val.vstr "10.1/x"), ("abstract", Val.vstr "A")]]).headD [])
      "abstract" = some (Val.vstr "A") := by
  have h := merge_field_priority
    [("doi", Val.vstr "10.1/x"), ("abstract", Val.vstr "A")]
    [("doi", Val.vstr "10.1/X"), ("abstract", Val.vstr ""), ("note", Val.vstr "n")]
    "10.1/x" "note" (Val.vstr "A") (Val.vstr "n")
    (by decide) (by decide) (by decide) (by decide)
  refine ⟨h.1, h.2.2.1 (by rfl) (by decide),
    (h.2.2.2 (by decide) (by decide)).1.trans (by rfl),
    (h.2.2.2 (by decide) (by decide)).2.trans (by rfl)⟩

/-- The string stored at a key, for building identifier strings and URLs
(the pipeline only ever reads string-valued doi/pmid/id fields here). -/
def getS (r : Rec) (k : String) : String :=
  match alGet r k with
  | some (.vstr s) => s
  | _ => ""

/-- One iteration of the partition loop of PaperSearchAPI.search,
literature.py lines 333-344: records with a truthy abstract go to the result
list, the rest are split by presence of doi / pmid, and keyed records with
neither go straight to the filtered-out list.  The four components are
(result, without_abstract_doi, without_abstract_pmid, filtered_result). -/
def partitionStep (acc : List Rec × List Rec × List Rec × List Rec) (r : Rec) :
    List Rec × List Rec × List Rec × List Rec :=
  if truthyO (alGet r "abstract") = false then
    if truthyO (alGet r "doi") then (acc.1, acc.2.1 ++ [r], acc.2.2.1, acc.2.2.2)
    else if truthyO (alGet r "pmid") then (acc.1, acc.2.1, acc.2.2.1 ++ [r], acc.2.2.2)
    else (acc.1, acc.2.1, acc.2.2.1, acc.2.2.2 ++ [r])
  else (acc.1 ++ [r], acc.2.1, acc.2.2.1, acc.2.2.2)

/-- Split a list into n chunks the way numpy.array_split does: the first
(len mod n) chunks have size (len div n + 1), the rest size (len div n). -/
def splitSizes {α : Type} : List α → List Nat → List (List α)
  | _, [] => []
  | l, s :: ss => l.take s :: splitSizes (l.drop s) ss

def arraySplit {α : Type} (l : List α) (n : Nat) : List (List α) :=
  splitSizes l
    (List.replicate (l.length % n) (l.length / n + 1) ++
      List.replicate (n - l.length % n) (l.length / n))

/-- The Science-Index (SemanticScholarBatchAPI) backfill block,
literature.py lines 349-372.  `batch` stands for
`SemanticScholarBatchAPI().query(ids, fields, filtered=True)`, whose results
carry `id` / `title` / `abstract` fields and echo a requested id; a result
with an id that was never requested would raise ValueError in
`list.index` (modelled by an out-of-range index, unreachable for the real
service).  Returns the updated (result, without_abstract_doi). -/
def doiBatchStep (batch : List String → List Rec) (result wadoi : List Rec) :
    List Rec × List Rec :=
  if wadoi.isEmpty then (result, wadoi)
  else
    let searchDoiStr := wadoi.map (fun r => "DOI:" ++ getS r "doi")
    let doiSearchResults :=
      if 500 < searchDoiStr.length then
        (arraySplit searchDoiStr (searchDoiStr.length / 500 + 1)).foldl
          (fun acc chunk => acc ++ batch chunk) []
      else batch searchDoiStr
    let step := doiSearchResults.foldl
      (fun (acc : List Rec × List Nat) sr =>
        let index := List.indexOf (getS sr "id") searchDoiStr
        let r2 := alSet (alSet (wadoi.getD index []) "title" (getDefault sr "title"))
          "abstract" (getDefault sr "abstract")
        (acc.1 ++ [r2], acc.2 ++ [index])) (result, [])
    ((step.1 : List Rec),
      (wadoi.enum.filter (fun p => ¬ p.1 ∈ step.2)).map Prod.snd)

/-- The doi-to-pmid resolution block, literature.py lines 375-387.
`doiToPmid` stands for the external `get_pmid_by_doi` call; `Except.error`
models an exception escaping that call (caught by the `except` branch),
`Except.ok ""` a lookup that found nothing.  Records resolving a truthy pmid
move to the pmid list, all others go to the filtered-out list. -/
def pmidResolveStep (doiToPmid : String → Except Unit String)
    (wadoi wapmid filteredRes : List Rec) : List Rec × List Rec :=
  if wadoi.isEmpty then (wapmid, filteredRes)
  else wadoi.foldl
    (fun (acc : List Rec × List Rec) r =>
      match doiToPmid (getS r "doi") with
      | .ok pmid =>
        if pmid ≠ "" then (acc.1 ++ [alSet r "pmid" (Val.vstr pmid)], acc.2)
        else (acc.1, acc.2 ++ [r])
      | .error _ => (acc.1, acc.2 ++ [r]))
    (wapmid, filteredRes)

/-- The PubMed block, literature.py lines 388-401.  `pubmed` stands for
`pubmed_search_requests(pmids)`; an empty result sends every pmid-bearing
record to the filtered-out list, otherwise records are zipped with the
returned articles and take the returned title/abstract when the returned
abstract is truthy. -/
def pubmedStep (pubmed : List String → List Rec)
    (result wapmid filteredRes : List Rec) : List Rec × List Rec :=
  if wapmid.isEmpty then (result, filteredRes)
  else
    let pubmedResult := pubmed (wapmid.map (fun r => getS r "pmid"))
    if pubmedResult.isEmpty then (result, filteredRes ++ wapmid)
    else (wapmid.zip pubmedResult).foldl
      (fun (acc : List Rec × List Rec) rp =>
        if truthyO (alGet rp.2 "abstract") then
          (acc.1 ++ [alSet (alSet rp.1 "title" (getDefault rp.2 "title"))
              "abstract" (getDefault rp.2 "abstract")], acc.2)
        else (acc.1, acc.2 ++ [rp.1]))
      (result, filteredRes)

/-- URL attachment for abstract-bearing results, literature.py lines
403-404: doi URL when the doi is truthy, else pubmed URL. -/
def attachUrl (r : Rec) : Rec :=
  if truthyO (alGet r "doi") then
    alSet r "url" (Val.vstr ("https://doi.org/" ++ getS r "doi"))
  else alSet r "url" (Val.vstr ("https://pubmed.ncbi.nlm.nih.gov/" ++ getS r "pmid"))

/-- Normalization of filtered-out records for the unfiltered output,
literature.py lines 407-417: best-effort URL, then falsy title and abstract
forced to the empty string. -/
def normalizeFiltered (r : Rec) : Rec :=
  let r1 :=
    if truthyO (alGet r "doi") then
      alSet r "url" (Val.vstr ("https://doi.org/" ++ getS r "doi"))
    else if truthyO (alGet r "pmid") then
      alSet r "url" (Val.vstr ("https://pubmed.ncbi.nlm.nih.gov/" ++ getS r "pmid"))
    else alSet r "url" (Val.vstr "")
  let r2 := if truthyO (alGet r1 "title") then r1 else alSet r1 "title" (Val.vstr "")
  if truthyO (alGet r2 "abstract") then r2 else alSet r2 "abstract" (Val.vstr "")

/-- The body of PaperSearchAPI.search after the two source calls,
literature.py lines 329-422, with the three external services passed as
functions.  Records reaching the partition always carry doi/pmid/abstract
keys (every adapter sets them), so Python's `r['doi']` item accesses are
read through `alGet` here. -/
def searchCore (semanticResult wosResult : List Rec)
    (batch : List String → List Rec)
    (doiToPmid : String → Except Unit String)
    (pubmed : List String → List Rec)
    (filtered : Bool) : List Rec :=
  let parts := (merge_and_deduplicate semanticResult wosResult).foldl
    partitionStep ([], [], [], [])
  let step1 := doiBatchStep batch parts.1 parts.2.1
  let step2 := pmidResolveStep doiToPmid step1.2 parts.2.2.1 parts.2.2.2
  let step3 := pubmedStep pubmed step1.1 step2.1 step2.2
  let result4 := step3.1.map attachUrl
  if filtered = false then result4 ++ step3.2.map normalizeFiltered else result4

/-- PaperSearchAPI.search, literature.py lines 310-344: the semantic and WoS
source calls (lines 321-326) are not wrapped in any try/except, so an
exception from either adapter propagates to the caller; this is the plain
exception-monad bind. -/
def searchE (semanticResult wosResult : Except Unit (List Rec))
    (batch : List String → List Rec)
    (doiToPmid : String → Except Unit String)
    (pubmed : List String → List Rec)
    (filtered : Bool) : Except Unit (List Rec) :=
  match semanticResult with
  | .error e => .error e
  | .ok s =>
    match wosResult with
    | .error e => .error e
    | .ok w => .ok (searchCore s w batch doiToPmid pubmed filtered)

/-- Counterexample to C6 as stated: a record with falsy doi, pmid and title
(but a real abstract) is dropped entirely by merge_and_deduplicate — it is
not collected separately — and is absent even from the unfiltered
(filtered=False) output of the search pipeline. -/
theorem unkeyable_records_collected_counterexample :
    merge_and_deduplicate
        [[("doi", Val.vstr ""), ("pmid", Val.vstr ""), ("title", Val.vstr ""),
          ("abstract", Val.vstr "A")]] [] = [] ∧
    searchCore
        [[("doi", Val.vstr ""), ("pmid", Val.vstr ""), ("title", Val.vstr ""),
          ("abstract", Val.vstr "A")]] []
        (fun _ => []) (fun _ => Except.ok "") (fun _ => []) false = [] := by
  constructor
  · rfl
  · rfl

/-- C6 AMENDED: records lacking all three key-bearing fields are excluded
from the merged map and dropped entirely (they reach neither output); the
records that are collected separately and retained only in the unfiltered
output are keyed records without abstract, doi and pmid (e.g. title-only
records). -/
theorem unkeyable_dropped_titleonly_retained (t : String) (ht : t ≠ "")
    (batch : List String → List Rec) (doiToPmid : String → Except Unit String)
    (pubmed : List String → List Rec) :
    (∀ r : Rec, dedupKey r = none → merge_and_deduplicate [r] [] = []) ∧
    searchCore [[("title", Val.vstr t), ("doi", Val.vstr ""), ("pmid", Val.vstr "")]] []
        batch doiToPmid pubmed true = [] ∧
    searchCore [[("title", Val.vstr t), ("doi", Val.vstr ""), ("pmid", Val.vstr "")]] []
        batch doiToPmid pubmed false =
      [[("title", Val.vstr t), ("doi", Val.vstr ""), ("pmid", Val.vstr ""),
        ("abstract", Val.vstr ""), ("url", Val.vstr "")]] := by
  have hdrop : ∀ r : Rec, dedupKey r = none → merge_and_deduplicate [r] [] = [] := by
    intro r hr
    simp [merge_and_deduplicate, mergeStep_none [] r hr]
  have hkey : dedupKey [(("title" : String), Val.vstr t), ("doi", Val.vstr ""),
      ("pmid", Val.vstr "")] = some (pyLower t) := by
    simp [dedupKey, alGet, truthyO, Val.truthy, ht, lowerKey]
  have hmerge : merge_and_deduplicate
      [[(("title" : String), Val.vstr t), ("doi", Val.vstr ""), ("pmid", Val.vstr "")]] [] =
      [[(("title" : String), Val.vstr t), ("doi", Val.vstr ""), ("pmid", Val.vstr ""),
        ("abstract", Val.vnone)]] := by
    unfold merge_and_deduplicate
    simp only [List.append_nil, List.foldl_cons, List.foldl_nil]
    rw [mergeStep_new [] _ (pyLower t) hkey rfl]
    rfl
  refine ⟨hdrop, ?_, ?_⟩
  · unfold searchCore
    rw [hmerge]
    rfl
  · unfold searchCore
    rw [hmerge]
    simp [partitionStep, doiBatchStep, pmidResolveStep, pubmedStep, attachUrl,
      normalizeFiltered, alGet, alSet, truthyO, Val.truthy, getS, getDefault, ht]

/-- Witness for C6 (amended) at a concrete title. -/
theorem unkeyable_dropped_titleonly_retained_witness :
    (∀ r : Rec, dedupKey r = none → merge_and_deduplicate [r] [] = []) ∧
    searchCore [[("title", Val.vstr "T"), ("doi", Val.vstr ""), ("pmid", Val.vstr "")]] []
        (fun _ => []) (fun _ => Except.ok "") (fun _ => []) true = [] ∧
    searchCore [[("title", Val.vstr "T"), ("doi", Val.vstr ""), ("pmid", Val.vstr "")]] []
        (fun _ => []) (fun _ => Except.ok "") (fun _ => []) false =
      [[("title", Val.vstr "T"), ("doi", Val.vstr ""), ("pmid", Val.vstr ""),
        ("abstract", Val.vstr ""), ("url", Val.vstr "")]] :=
  unkeyable_dropped_titleonly_retained "T" (by decide)
    (fun _ => []) (fun _ => Except.ok "") (fun _ => [])

/-- Python `needle in hay` on strings. -/
def pyIn (needle hay : String) : Bool :=
  hay.toList.tails.any (fun t => needle.toList.isPrefixOf t)

/-- Python `o is None` for an optional record value: the key is absent or
stores None. -/
def isNoneVal : Option Val → Bool
  | none => true
  | some .vnone => true
  | _ => false

/-- Outcome of one Semantic Scholar bulk-search HTTP request as seen by
`query_once`: either `requests.get` raised (caught at
semantic_bulk_search.py lines 100-105), or a response with a status code, a
total, a data page and an optional continuation token arrived. -/
inductive SemResponse where
  | exn : SemResponse
  | resp : Int → Int → List Rec → Option String → SemResponse

/-- SemanticBulkSearchAPI.query_once, semantic_bulk_search.py lines 58-121:
a raised request or a non-200 status yields (0, [], None); otherwise falsy
papers are skipped and, when `filtered` is set and "abstract" occurs in the
requested fields string, so are papers whose abstract is None. -/
def semQueryOnce (oracle : Option String → SemResponse) (fields : String)
    (filtered : Bool) (token : Option String) : Int × List Rec × Option String :=
  match oracle token with
  | .exn => (0, [], none)
  | .resp status total data tok =>
    if status ≠ 200 then (0, [], none)
    else (total,
      data.filter (fun p => !p.isEmpty &&
        !(filtered && pyIn "abstract" fields && isNoneVal (alGet p "abstract"))), tok)

/-- The pagination loop of SemanticBulkSearchAPI.query, lines 150-157: while
results are still wanted, fetch the next page; when the new response carries
no continuation token the loop breaks BEFORE appending that page's data.
The loop has no intrinsic bound (it only shrinks `rest` by the fetched page
lengths), so it is modelled with fuel; `none` means the loop was still
running after `fuel` iterations. -/
def semQueryLoop (oracle : Option String → SemResponse) (fields : String)
    (filtered : Bool) : Nat → Int → Option String → List Rec → Option (List Rec)
  | 0, _, _, _ => none
  | fuel + 1, rest, token, result =>
    if rest ≤ 0 then some result
    else
      let tdt := semQueryOnce oracle fields filtered token
      match tdt.2.2 with
      | none => some result
      | some t =>
        semQueryLoop oracle fields filtered fuel (rest - tdt.2.1.length) (some t)
          (result ++ tdt.2.1)

/-- Python slice `l[:n]`, including the negative-stop case. -/
def pySliceTo {α : Type} (l : List α) (n : Int) : List α :=
  if 0 ≤ n then l.take n.toNat else l.take ((l.length : Int) + n).toNat

/-- SemanticBulkSearchAPI.query, semantic_bulk_search.py lines 123-159: on a
zero total it returns `[{}]` — a one-element list holding an empty dict —
not the empty list; on a large enough first page it slices; otherwise it
paginates with `semQueryLoop`. -/
def semQuery (oracle : Option String → SemResponse) (fields : String)
    (numResults : Int) (filtered : Bool) (fuel : Nat) : Option (List Rec) :=
  let tdt := semQueryOnce oracle fields filtered none
  if tdt.1 = 0 then some [[]]
  else if numResults ≤ (tdt.2.1.length : Int) then some (pySliceTo tdt.2.1 numResults)
  else
    semQueryLoop oracle fields filtered fuel
      (min numResults tdt.1 - tdt.2.1.length) tdt.2.2 tdt.2.1

/-- WosSearchAPI.query_once, wos_search.py lines 66-91, with the HTTP call
abstracted to an oracle (limit, page) → (total, data): a non-positive limit
short-circuits to (0, []). -/
def wosQueryOnce {α : Type} (oracle : Int → Int → Int × List α) (limit page : Int) :
    Int × List α :=
  if limit ≤ 0 then (0, []) else oracle limit page

/-- The pagination loop of WosSearchAPI.search, wos_search.py lines 115-124:
while more results are wanted, request the next page with
limit = min(rest, 50), stop on a zero total, and shrink `rest` by `limit`
(which also bounds the loop).  The issued (limit, page) pairs are traced in
`calls`. -/
def wosLoop {α : Type} (oracle : Int → Int → Int × List α)
    (restNum page : Int) (result : List α) (calls : List (Int × Int)) :
    List α × List (Int × Int) :=
  if h : 0 < restNum then
    let limit := min restNum 50
    let td := wosQueryOnce oracle limit (page + 1)
    if td.1 = 0 then (result, calls ++ [(limit, page + 1)])
    else
      wosLoop oracle (restNum - limit) (page + 1) (result ++ td.2)
        (calls ++ [(limit, page + 1)])
  else (result, calls)
termination_by restNum.toNat
decreasing_by
  have h1 : 1 ≤ min restNum 50 := le_min (by omega) (by norm_num)
  have h2 : min restNum 50 ≤ restNum := min_le_left _ _
  simp_wf
  omega

/-- WosSearchAPI.search, wos_search.py lines 93-126: first page with
limit = min(num_results, 50), empty result on a zero total, then the
pagination loop with rest = min(num_results, total) - limit. -/
def wosSearch {α : Type} (oracle : Int → Int → Int × List α) (numResults : Int) :
    List α × List (Int × Int) :=
  let limit := min numResults 50
  let td := wosQueryOnce oracle limit 1
  if td.1 = 0 then ([], [(limit, 1)])
  else wosLoop oracle (min numResults td.1 - limit) 1 td.2 [(limit, 1)]

/-- A mocked paginated source reporting a fixed total, with arbitrary page
content. -/
def mockOracle {α : Type} (pageData : Int → Int → List α) (total : Int) :
    Int → Int → Int × List α :=
  fun limit page => (total, pageData limit page)

/-- C10: in SemanticBulkSearchAPI.query, a follow-up page whose response
carries no continuation token makes the loop exit before appending that
page's records, so the client returns strictly fewer than
min(num_results, total) records even though the source supplied them: with
total = 4, a first page of 2 records and a second (token-free) page of 2
records, only the 2 first-page records are returned. -/
theorem sem_last_page_discarded :
    semQuery
        (fun token =>
          match token with
          | none =>
            SemResponse.resp 200 4 [[("title", Val.vstr "r1")], [("title", Val.vstr "r2")]]
              (some "tok")
          | some _ =>
            SemResponse.resp 200 4 [[("title", Val.vstr "r3")], [("title", Val.vstr "r4")]]
              none)
        "title,abstract" 6 false 10 =
      some [[("title", Val.vstr "r1")], [("title", Val.vstr "r2")]] ∧
    ((semQuery
        (fun token =>
          match token with
          | none =>
            SemResponse.resp 200 4 [[("title", Val.vstr "r1")], [("title", Val.vstr "r2")]]
              (some "tok")
          | some _ =>
            SemResponse.resp 200 4 [[("title", Val.vstr "r3")], [("title", Val.vstr "r4")]]
              none)
        "title,abstract" 6 false 10).getD []).length < min 6 4 := by
  constructor
  · rfl
  · decide

/-- C7 AMENDED: WosSearchAPI.search does return the empty sequence when the
first page reports a zero total, but SemanticBulkSearchAPI.query returns
`[{}]` — a one-element list holding an empty record — on a zero total. -/
theorem zero_total_results (numResults : Int)
    (oracle : Int → Int → Int × List Nat)
    (h : (wosQueryOnce oracle (min numResults 50) 1).1 = 0) :
    (wosSearch oracle numResults).1 = [] ∧
    semQuery (fun _ => SemResponse.resp 200 0 [] none) "title,abstract" 50 false 10 =
      some [[]] := by
  constructor
  · unfold wosSearch
    rw [if_pos h]
  · rfl

/-- Witness for C7 (amended) at a constantly-empty source. -/
theorem zero_total_results_witness :
    (wosSearch (fun _ _ => ((0 : Int), ([] : List Nat))) 80).1 = [] ∧
    semQuery (fun _ => SemResponse.resp 200 0 [] none) "title,abstract" 50 false 10 =
      some [[]] :=
  zero_total_results 80 (fun _ _ => ((0 : Int), ([] : List Nat))) (by rfl)

/-- Counterexample to C7 as stated: on a zero-total first response,
SemanticBulkSearchAPI.query returns a one-element placeholder list (the
empty record), not a sequence of length zero. -/
theorem zero_total_results_counterexample :
    ((semQuery (fun _ => SemResponse.resp 200 0 [] none) "title,abstract" 50 false
        10).getD []).length = 1 := by
  rfl

theorem wosLoop_pos {α : Type} (oracle : Int → Int → Int × List α)
    (restNum page : Int) (result : List α) (calls : List (Int × Int)) (h : 0 < restNum) :
    wosLoop oracle restNum page result calls =
      if (wosQueryOnce oracle (min restNum 50) (page + 1)).1 = 0 then
        (result, calls ++ [(min restNum 50, page + 1)])
      else
        wosLoop oracle (restNum - min restNum 50) (page + 1)
          (result ++ (wosQueryOnce oracle (min restNum 50) (page + 1)).2)
          (calls ++ [(min restNum 50, page + 1)]) := by
  rw [wosLoop]
  simp only [dif_pos h]

theorem wosLoop_nonpos {α : Type} (oracle : Int → Int → Int × List α)
    (restNum page : Int) (result : List α) (calls : List (Int × Int))
    (h : ¬ 0 < restNum) :
    wosLoop oracle restNum page result calls = (result, calls) := by
  rw [wosLoop]
  simp only [dif_neg h]

/-- C9: against a mocked source reporting total = 237 with the client's
per-call cap of 50, and any requested count of at least 237,
WosSearchAPI.search issues exactly five page requests — four with limit 50
and one with limit 37, pages 1 through 5 — and returns the concatenation of
the five pages in order. -/
theorem wos_pagination_exact_calls {α : Type} (pageData : Int → Int → List α)
    (n : Int) (hn : 237 ≤ n) :
    wosSearch (mockOracle pageData 237) n =
      (pageData 50 1 ++ pageData 50 2 ++ pageData 50 3 ++ pageData 50 4 ++ pageData 37 5,
        [(50, 1), (50, 2), (50, 3), (50, 4), (37, 5)]) := by
  have hmin50 : min n 50 = 50 := min_eq_right (by omega)
  have hmin237 : min n 237 = 237 := min_eq_right (by omega)
  unfold wosSearch
  rw [hmin50]
  norm_num [wosQueryOnce, mockOracle]
  rw [hmin237]
  rw [wosLoop_pos _ _ _ _ _ (by norm_num : (0 : Int) < 237 - 50)]
  norm_num [wosQueryOnce, mockOracle, min_def]
  rw [wosLoop_pos _ _ _ _ _ (by norm_num : (0 : Int) < 137)]
  norm_num [wosQueryOnce, mockOracle, min_def]
  rw [wosLoop_pos _ _ _ _ _ (by norm_num : (0 : Int) < 87)]
  norm_num [wosQueryOnce, mockOracle, min_def]
  rw [wosLoop_pos _ _ _ _ _ (by norm_num : (0 : Int) < 37)]
  norm_num [wosQueryOnce, mockOracle, min_def, wosLoop_nonpos]

/-- Witness for C9 at a concrete page-content function and n = 237. -/
theorem wos_pagination_exact_calls_witness :
    wosSearch (mockOracle (fun limit page => List.replicate limit.toNat page) 237) 237 =
      (List.replicate 50 (1 : Int) ++ List.replicate 50 2 ++ List.replicate 50 3 ++
        List.replicate 50 4 ++ List.replicate 37 5,
        [(50, 1), (50, 2), (50, 3), (50, 4), (37, 5)]) := by
  have h := wos_pagination_exact_calls
    (fun limit page => List.replicate limit.toNat (page : Int)) 237 (by norm_num)
  simpa using h

/-- C4 AMENDED: an HTTP-level failure of the Semantic Scholar bulk request is
absorbed inside query_once and surfaces as the `[{}]` placeholder, but
PaperSearchAPI.search wraps neither source call in exception handling, so an
exception raised by the Web of Science adapter (or by the semantic wrapper)
propagates to the caller even when the other source succeeded. -/
theorem source_failure_propagation :
    semQuery (fun _ => SemResponse.exn) "title,abstract" 50 false 10 = some [[]] ∧
    (∀ (s : List Rec) (batch : List String → List Rec)
        (doiToPmid : String → Except Unit String) (pubmed : List String → List Rec)
        (filtered : Bool),
        searchE (Except.ok s) (Except.error ()) batch doiToPmid pubmed filtered =
          Except.error ()) ∧
    (∀ (w : Except Unit (List Rec)) (batch : List String → List Rec)
        (doiToPmid : String → Except Unit String) (pubmed : List String → List Rec)
        (filtered : Bool),
        searchE (Except.error ()) w batch doiToPmid pubmed filtered =
          Except.error ()) := by
  refine ⟨rfl, ?_, ?_⟩
  · intro s batch doiToPmid pubmed filtered
    rfl
  · intro w batch doiToPmid pubmed filtered
    rfl

/-- Counterexample to C4 as stated: the semantic source succeeds with an
abstract-bearing record, the WoS adapter raises, and the whole pipeline
returns the exception instead of a record sequence. -/
theorem source_failure_propagation_counterexample :
    searchE
        (Except.ok [[("title", Val.vstr "T"), ("abstract", Val.vstr "A"),
          ("doi", Val.vstr "10.1/x"), ("pmid", Val.vstr "")]])
        (Except.error ()) (fun _ => []) (fun _ => Except.ok "") (fun _ => []) true =
      Except.error () := rfl

/-- The retry loop of PaperSearchAPI.pubmed_search_urllib, literature.py
lines 154-171.  `server` maps the attempt index to the outcome of
urllib.request.urlopen: a successful body or an HTTPError code.  On a 429
with retry < max_retry the loop sleeps, doubles the sleep time and retries;
otherwise the error is re-raised.  Returns (outcome, attempts made, sleep
durations in seconds; the initial sleep_time is 1.0 and doubling floats up
to 2^5 is exact). -/
def urllibLoop (server : Nat → Except Int String) (maxRetry : Nat)
    (attempt retry sleepTime : Nat) (sleeps : List Nat) :
    Except Int String × Nat × List Nat :=
  match server attempt with
  | .ok body => (.ok body, attempt + 1, sleeps)
  | .error code =>
    if h : code = 429 ∧ retry < maxRetry then
      urllibLoop server maxRetry (attempt + 1) (retry + 1) (sleepTime * 2)
        (sleeps ++ [sleepTime])
    else (.error code, attempt + 1, sleeps)
termination_by maxRetry - retry
decreasing_by omega

/-- pubmed_search_urllib's loop entered with retry = 0, sleep_time = 1.0 and
the class attribute max_retry = 5. -/
def pubmedUrllibFetch (server : Nat → Except Int String) :
    Except Int String × Nat × List Nat :=
  urllibLoop server 5 0 0 1 []

/-- The retry loop of PaperSearchAPI.pubmed_search_requests, literature.py
lines 262-282.  `server` maps the attempt index to the outcome of
requests.get: `Except.error` models a raised request exception (the except
branch returns []), `Except.ok code` a response with that status code.  On a
429 the loop sleeps, doubles the sleep time and increments `retry` — but
never compares it with anything — and on a non-200/non-429 status
raise_for_status raises into the except branch.  The loop has no bound, so
it is modelled with fuel; `none` means it was still running after `fuel`
attempts.  The Bool is true when the loop broke out with a 200 response. -/
def requestsLoop (server : Nat → Except Unit Int) :
    Nat → Nat → Nat → Nat → List Nat → Option (Bool × Nat × List Nat)
  | 0, _, _, _, _ => none
  | fuel + 1, attempt, retry, sleepTime, sleeps =>
    match server attempt with
    | .error _ => some (false, attempt + 1, sleeps)
    | .ok code =>
      if code = 429 then
        requestsLoop server fuel (attempt + 1) (retry + 1) (sleepTime * 2)
          (sleeps ++ [sleepTime])
      else if code ≠ 200 then some (false, attempt + 1, sleeps)
      else some (true, attempt + 1, sleeps)

/-- pubmed_search_requests' loop entered with retry = 0, sleep_time = 1.0. -/
def pubmedRequestsFetch (server : Nat → Except Unit Int) (fuel : Nat) :
    Option (Bool × Nat × List Nat) :=
  requestsLoop server fuel 0 0 1 []

theorem urllibLoop_attempts_le (server : Nat → Except Int String) (maxRetry : Nat) :
    ∀ (gas retry attempt sleepTime : Nat) (sleeps : List Nat),
      maxRetry ≤ retry + gas →
      (urllibLoop server maxRetry attempt retry sleepTime sleeps).2.1 ≤
        attempt + 1 + gas := by
  intro gas
  induction gas with
  | zero =>
    intro retry attempt sleepTime sleeps hle
    rw [urllibLoop]
    cases hsrv : server attempt with
    | ok body => simp
    | error code =>
      have hcond : ¬ (code = 429 ∧ retry < maxRetry) := by
        intro hc
        omega
      simp [hcond]
  | succ g ih =>
    intro retry attempt sleepTime sleeps hle
    rw [urllibLoop]
    cases hsrv : server attempt with
    | ok body => simp
    | error code =>
      by_cases hcond : code = 429 ∧ retry < maxRetry
      · simp only [dif_pos hcond]
        have := ih (retry + 1) (attempt + 1) (sleepTime * 2) (sleeps ++ [sleepTime])
          (by omega)
        omega
      · simp only [dif_neg hcond]
        simp

/-- C8 shows a code bug: pubmed_search_urllib does retry with doubling
backoff and at most max_retry = 5 retries (at most 6 attempts, raising the
429 afterwards, having slept 1,2,4,8,16 seconds), but
pubmed_search_requests increments its `retry` counter without ever checking
it against max_retry, so on a server that keeps answering 429 the loop
never exits, no matter how much fuel it is given — while it still doubles
the backoff, as the run with three 429s before a 200 shows. -/
theorem pubmed_retry_bound_divergence :
    (∀ server : Nat → Except Int String, (pubmedUrllibFetch server).2.1 ≤ 6) ∧
    pubmedUrllibFetch (fun _ => Except.error 429) =
      (Except.error 429, 6, [1, 2, 4, 8, 16]) ∧
    (∀ fuel : Nat, pubmedRequestsFetch (fun _ => Except.ok 429) fuel = none) ∧
    pubmedRequestsFetch (fun n => if n < 3 then Except.ok 429 else Except.ok 200) 10 =
      some (true, 4, [1, 2, 4]) := by
  refine ⟨?_, ?_, ?_, ?_⟩
  · intro server
    exact urllibLoop_attempts_le server 5 5 0 0 1 [] (by omega)
  · simp [pubmedUrllibFetch, urllibLoop]
  · intro fuel
    suffices h : ∀ (fuel attempt retry sleepTime : Nat) (sleeps : List Nat),
        requestsLoop (fun _ => Except.ok 429) fuel attempt retry sleepTime sleeps = none by
      exact h fuel 0 0 1 []
    intro fuel
    induction fuel with
    | zero => intro attempt retry sleepTime sleeps; rfl
    | succ g ih =>
      intro attempt retry sleepTime sleeps
      simp only [requestsLoop]
      simpa using ih (attempt + 1) (retry + 1) (sleepTime * 2) (sleeps ++ [sleepTime])
  · rfl

/-- C5: a merged record with empty abstract and truthy doi that is missed by
the Science-Index DOI batch (batch returns nothing), then resolves a truthy
pmid via the DOI-to-PMID lookup, then hits PubMed with a truthy abstract,
ends in the abstract-bearing result list carrying the PubMed title and
abstract (and a doi-derived URL); a record whose DOI-to-PMID resolution
returns nothing or raises ends in the filtered-out set: absent from the
filtered output, present (normalized) only in the unfiltered output. -/
theorem backfill_state_machine (t d p t2 a : String)
    (ht : t ≠ "") (hd : d ≠ "") (hp : p ≠ "") (ha : a ≠ "") :
    searchCore
        [[("title", Val.vstr t), ("abstract", Val.vstr ""), ("doi", Val.vstr d),
          ("pmid", Val.vstr "")]] []
        (fun _ => []) (fun _ => Except.ok p)
        (fun _ => [[("pmid", Val.vstr p), ("title", Val.vstr t2),
          ("abstract", Val.vstr a)]]) true =
      [[("title", Val.vstr t2), ("abstract", Val.vstr a), ("doi", Val.vstr d),
        ("pmid", Val.vstr p), ("url", Val.vstr ("https://doi.org/" ++ d))]] ∧
    (∀ resolve : String → Except Unit String,
      resolve d = Except.ok "" ∨ resolve d = Except.error () →
      searchCore
          [[("title", Val.vstr t), ("abstract", Val.vstr ""), ("doi", Val.vstr d),
            ("pmid", Val.vstr "")]] []
          (fun _ => []) resolve
          (fun _ => [[("pmid", Val.vstr p), ("title", Val.vstr t2),
            ("abstract", Val.vstr a)]]) true = [] ∧
      searchCore
          [[("title", Val.vstr t), ("abstract", Val.vstr ""), ("doi", Val.vstr d),
            ("pmid", Val.vstr "")]] []
          (fun _ => []) resolve
          (fun _ => [[("pmid", Val.vstr p), ("title", Val.vstr t2),
            ("abstract", Val.vstr a)]]) false =
        [[("title", Val.vstr t), ("abstract", Val.vstr ""), ("doi", Val.vstr d),
          ("pmid", Val.vstr ""), ("url", Val.vstr ("https://doi.org/" ++ d))]]) := by
  have hkey : dedupKey [(("title" : String), Val.vstr t), ("abstract", Val.vstr ""),
      ("doi", Val.vstr d), ("pmid", Val.vstr "")] = some (pyLower d) := by
    simp [dedupKey, alGet, truthyO, Val.truthy, hd, lowerKey]
  have hmerge : merge_and_deduplicate
      [[(("title" : String), Val.vstr t), ("abstract", Val.vstr ""),
        ("doi", Val.vstr d), ("pmid", Val.vstr "")]] [] =
      [[(("title" : String), Val.vstr t), ("abstract", Val.vstr ""),
        ("doi", Val.vstr d), ("pmid", Val.vstr "")]] := by
    unfold merge_and_deduplicate
    simp only [List.append_nil, List.foldl_cons, List.foldl_nil]
    rw [mergeStep_new [] _ (pyLower d) hkey rfl]
    rfl
  constructor
  · unfold searchCore
    rw [hmerge]
    simp [partitionStep, doiBatchStep, pmidResolveStep, pubmedStep, attachUrl,
      alGet, alSet, getS, getDefault, truthyO, Val.truthy, hd, hp, ha]
  · intro resolve hres
    rcases hres with h | h
    · constructor
      · unfold searchCore
        rw [hmerge]
        simp [partitionStep, doiBatchStep, pmidResolveStep, pubmedStep, attachUrl,
          alGet, alSet, getS, getDefault, truthyO, Val.truthy, hd, h]
      · unfold searchCore
        rw [hmerge]
        simp [partitionStep, doiBatchStep, pmidResolveStep, pubmedStep, attachUrl,
          normalizeFiltered, alGet, alSet, getS, getDefault, truthyO, Val.truthy,
          hd, ht, h]
    · constructor
      · unfold searchCore
        rw [hmerge]
        simp [partitionStep, doiBatchStep, pmidResolveStep, pubmedStep, attachUrl,
          alGet, alSet, getS, getDefault, truthyO, Val.truthy, hd, h]
      · unfold searchCore
        rw [hmerge]
        simp [partitionStep, doiBatchStep, pmidResolveStep, pubmedStep, attachUrl,
          normalizeFiltered, alGet, alSet, getS, getDefault, truthyO, Val.truthy,
          hd, ht, h]

/-- Witness for C5 at concrete field values. -/
theorem backfill_state_machine_witness :
    searchCore
        [[("title", Val.vstr "Old"), ("abstract", Val.vstr ""),
          ("doi", Val.vstr "10.1/x"), ("pmid", Val.vstr "")]] []
        (fun _ => []) (fun _ => Except.ok "31199361")
        (fun _ => [[("pmid", Val.vstr "31199361"), ("title", Val.vstr "New"),
          ("abstract", Val.vstr "Abs")]]) true =
      [[("title", Val.vstr "New"), ("abstract", Val.vstr "Abs"),
        ("doi", Val.vstr "10.1/x"), ("pmid", Val.vstr "31199361"),
        ("url", Val.vstr "https://doi.org/10.1/x")]] ∧
    searchCore
        [[("title", Val.vstr "Old"), ("abstract", Val.vstr ""),
          ("doi", Val.vstr "10.1/x"), ("pmid", Val.vstr "")]] []
        (fun _ => []) (fun _ => Except.error ())
        (fun _ => [[("pmid", Val.vstr "31199361"), ("title", Val.vstr "New"),
          ("abstract", Val.vstr "Abs")]]) true = [] := by
  have h := backfill_state_machine "Old" "10.1/x" "31199361" "New" "Abs"
    (by decide) (by decide) (by decide) (by decide)
  exact ⟨h.1, (h.2 (fun _ => Except.error ()) (Or.inr rfl)).1⟩

theorem alGet_append {α : Type} (m1 m2 : List (String × α)) (k : String) :
    alGet (m1 ++ m2) k =
      match alGet m1 k with
      | some v => some v
      | none => alGet m2 k := by
  induction m1 with
  | nil => simp [alGet]
  | cons p rest ih =>
    by_cases hp : p.1 = k
    · simp [alGet, hp]
    · simp [alGet, hp, ih]

theorem alGet_some_mem {α : Type} (m : List (String × α)) (k : String) (v : α)
    (h : alGet m k = some v) : (k, v) ∈ m := by
  induction m with
  | nil => simp [alGet] at h
  | cons p rest ih =>
    by_cases hp : p.1 = k
    · rw [alGet_cons, if_pos hp] at h
      rw [← hp, ← Option.some.inj h, Prod.mk.eta]
      exact List.mem_cons_self p rest
    · rw [alGet_cons, if_neg hp] at h
      exact List.mem_cons_of_mem p (ih h)

theorem mem_alSet {α : Type} (m : List (String × α)) (k : String) (v : α)
    (q : String × α) (h : q ∈ alSet m k v) : q ∈ m ∨ q = (k, v) := by
  induction m with
  | nil =>
    simp [alSet] at h
    right
    exact h
  | cons p rest ih =>
    by_cases hp : p.1 = k
    · simp only [alSet, if_pos hp, List.mem_cons] at h
      rcases h with h | h
      · right
        rw [h, hp]
      · left
        exact List.mem_cons_of_mem p h
    · simp only [alSet, if_neg hp, List.mem_cons] at h
      rcases h with h | h
      · left
        rw [h]
        exact List.mem_cons_self p rest
      · rcases ih h with h2 | h2
        · left
          exact List.mem_cons_of_mem p h2
        · right
          exact h2

theorem alKeys_alSet_nodup {α : Type} (m : List (String × α)) (k : String) (v : α)
    (h : (alKeys m).Nodup) : (alKeys (alSet m k v)).Nodup := by
  by_cases hm : k ∈ alKeys m
  · rw [alKeys_alSet_mem m k v hm]
    exact h
  · rw [alSet_not_mem m k v hm, alKeys_append]
    simp [List.nodup_append, h, hm]

/-- The per-key collapse of the merge loop: the first record of a key group
creates the entry via `newEntry`, every later one updates it. -/
def groupFold (acc : Option Rec) (l : List Rec) : Option Rec :=
  l.foldl
    (fun a e =>
      match a with
      | none => some (newEntry e)
      | some ex => some (updateEntry ex e)) acc

@[simp] theorem groupFold_nil (acc : Option Rec) : groupFold acc [] = acc := rfl

theorem groupFold_cons (acc : Option Rec) (e : Rec) (l : List Rec) :
    groupFold acc (e :: l) =
      groupFold
        (match acc with
          | none => some (newEntry e)
          | some ex => some (updateEntry ex e)) l := rfl

theorem groupFold_some (x : Rec) (l : List Rec) :
    groupFold (some x) l = some (l.foldl updateEntry x) := by
  induction l generalizing x with
  | nil => rfl
  | cons e t ih => rw [groupFold_cons, ih, List.foldl_cons]

theorem groupFold_isSome (acc : Option Rec) (l : List Rec) (hl : l ≠ []) :
    (groupFold acc l).isSome := by
  cases l with
  | nil => exact absurd rfl hl
  | cons e t =>
    rw [groupFold_cons]
    cases acc with
    | none => rw [groupFold_some]; rfl
    | some ex => rw [groupFold_some]; rfl

/-- Per-key characterization of the merge fold: the value stored at key k is
the group fold of the records whose dedup key is k. -/
theorem alGet_foldl_mergeStep (A : List Rec) (m : MergedMap) (k : String) :
    alGet (A.foldl mergeStep m) k =
      groupFold (alGet m k) (A.filter (fun e => decide (dedupKey e = some k))) := by
  induction A generalizing m with
  | nil => simp
  | cons e rest ih =>
    rw [List.foldl_cons, ih, List.filter_cons]
    cases hde : dedupKey e with
    | none =>
      rw [mergeStep_none m e hde]
      simp
    | some k2 =>
      by_cases hk : k2 = k
      · subst hk
        rw [if_pos (by simp)]
        rw [groupFold_cons]
        cases hm : alGet m k2 with
        | none =>
          rw [mergeStep_new m e k2 hde hm, alGet_alSet, if_pos rfl]
        | some ex =>
          rw [mergeStep_update m e k2 ex hde hm, alGet_alSet, if_pos rfl]
      · rw [if_neg (by simp [hk])]
        congr 1
        cases hm : alGet m k2 with
        | none => rw [mergeStep_new m e k2 hde hm, alGet_alSet, if_neg hk]
        | some ex => rw [mergeStep_update m e k2 ex hde hm, alGet_alSet, if_neg hk]

theorem alKeys_mergeStep_nodup (m : MergedMap) (e : Rec)
    (h : (alKeys m).Nodup) : (alKeys (mergeStep m e)).Nodup := by
  cases hde : dedupKey e with
  | none => rw [mergeStep_none m e hde]; exact h
  | some k =>
    cases hm : alGet m k with
    | none => rw [mergeStep_new m e k hde hm]; exact alKeys_alSet_nodup m k _ h
    | some ex => rw [mergeStep_update m e k ex hde hm]; exact alKeys_alSet_nodup m k _ h

theorem alKeys_foldl_mergeStep_nodup (A : List Rec) (m : MergedMap)
    (h : (alKeys m).Nodup) : (alKeys (A.foldl mergeStep m)).Nodup := by
  induction A generalizing m with
  | nil => exact h
  | cons e rest ih => exact ih (mergeStep m e) (alKeys_mergeStep_nodup m e h)

theorem alKeys_mergeStep_covered (m : MergedMap) (e : Rec)
    (h : ∀ k, dedupKey e = some k → k ∈ alKeys m) :
    alKeys (mergeStep m e) = alKeys m := by
  cases hde : dedupKey e with
  | none => rw [mergeStep_none m e hde]
  | some k =>
    cases hm : alGet m k with
    | none =>
      have := alGet_isSome_of_mem m k (h k hde)
      rw [hm] at this
      simp at this
    | some ex =>
      rw [mergeStep_update m e k ex hde hm]
      exact alKeys_alSet_mem m k _ (h k hde)

theorem alKeys_foldl_mergeStep_covered (A : List Rec) (m : MergedMap)
    (h : ∀ e ∈ A, ∀ k, dedupKey e = some k → k ∈ alKeys m) :
    alKeys (A.foldl mergeStep m) = alKeys m := by
  induction A generalizing m with
  | nil => rfl
  | cons e rest ih =>
    rw [List.foldl_cons]
    have hstep : alKeys (mergeStep m e) = alKeys m :=
      alKeys_mergeStep_covered m e (h e (List.mem_cons_self e rest))
    rw [ih (mergeStep m e) (by
      intro x hx k hk
      rw [hstep]
      exact h x (List.mem_cons_of_mem e hx) k hk), hstep]

theorem isSome_alGet_foldl_mergeStep (A : List Rec) (m : MergedMap) (e : Rec)
    (k : String) (he : e ∈ A) (hk : dedupKey e = some k) :
    (alGet (A.foldl mergeStep m) k).isSome := by
  rw [alGet_foldl_mergeStep]
  apply groupFold_isSome
  intro hnil
  have : e ∈ A.filter (fun x => decide (dedupKey x = some k)) :=
    List.mem_filter.2 ⟨he, by simp [hk]⟩
  rw [hnil] at this
  simp at this

theorem mem_alKeys_of_mem {α : Type} (m : List (String × α)) (q : String × α)
    (h : q ∈ m) : q.1 ∈ alKeys m := by
  induction m with
  | nil => simp at h
  | cons p rest ih =>
    rcases List.mem_cons.1 h with h | h
    · rw [h]
      exact List.mem_cons_self _ _
    · exact List.mem_cons_of_mem _ (ih h)

/-- For a well-formed (duplicate-free) incoming record, `updateEntry` acts
field-wise: truthy existing values stay, otherwise the incoming value (when
present) is taken. -/
theorem alGet_updateEntry_wf (ex inc : Rec) (f : String) (hwf : wfRec inc) :
    alGet (updateEntry ex inc) f =
      if truthyO (alGet ex f) = true then alGet ex f
      else (alGet inc f).elim (alGet ex f) some := by
  rw [alGet_updateEntry, valsOf_wf inc f hwf]
  cases hif : alGet inc f with
  | none =>
    simp only [Option.elim_none, fieldUpd_nil]
    by_cases ht : truthyO (alGet ex f) = true
    · rw [if_pos ht]
    · rw [if_neg ht]
  | some v =>
    simp only [Option.elim_some]
    by_cases ht : truthyO (alGet ex f) = true
    · rw [fieldUpd_cons, if_pos ht, fieldUpd_of_truthy _ _ ht]
    · rw [fieldUpd_cons, if_neg ht, fieldUpd_nil]

/-- Colliding records leave the dedup key unchanged: updating an entry of
key k with an incoming record of the same key k produces a record still
keyed k. -/
theorem dedupKey_updateEntry (ex inc : Rec) (k : String) (hwf : wfRec inc)
    (hex : dedupKey ex = some k) (hinc : dedupKey inc = some k) :
    dedupKey (updateEntry ex inc) = some k := by
  have hu := fun f => alGet_updateEntry_wf ex inc f hwf
  by_cases hd : truthyO (alGet ex "doi") = true
  · have h1 : alGet (updateEntry ex inc) "doi" = alGet ex "doi" := by
      rw [hu, if_pos hd]
    unfold dedupKey at hex ⊢
    rw [h1, if_pos hd]
    rw [if_pos hd] at hex
    exact hex
  · have h1 : alGet (updateEntry ex inc) "doi" =
        (alGet inc "doi").elim (alGet ex "doi") some := by
      rw [hu, if_neg hd]
    by_cases hud : truthyO (alGet (updateEntry ex inc) "doi") = true
    · cases hincd : alGet inc "doi" with
      | none =>
        rw [hincd] at h1
        simp only [Option.elim_none] at h1
        exact absurd (h1 ▸ hud) hd
      | some v =>
        rw [hincd] at h1
        simp only [Option.elim_some] at h1
        have hv : Val.truthy v = true := by
          rw [h1] at hud
          simpa using hud
        have hk2 : some (lowerKey (some v)) = some k := by
          unfold dedupKey at hinc
          rw [hincd, if_pos (by simpa using hv)] at hinc
          exact hinc
        unfold dedupKey
        rw [if_pos hud, h1]
        exact hk2
    · by_cases hp : truthyO (alGet ex "pmid") = true
      · have h2 : alGet (updateEntry ex inc) "pmid" = alGet ex "pmid" := by
          rw [hu, if_pos hp]
        have hk2 : some (lowerKey (alGet ex "pmid")) = some k := by
          unfold dedupKey at hex
          rw [if_neg hd, if_pos hp] at hex
          exact hex
        unfold dedupKey
        rw [if_neg hud, h2, if_pos hp]
        exact hk2
      · have h2 : alGet (updateEntry ex inc) "pmid" =
            (alGet inc "pmid").elim (alGet ex "pmid") some := by
          rw [hu, if_neg hp]
        by_cases hup : truthyO (alGet (updateEntry ex inc) "pmid") = true
        · cases hincp : alGet inc "pmid" with
          | none =>
            rw [hincp] at h2
            simp only [Option.elim_none] at h2
            exact absurd (h2 ▸ hup) hp
          | some w =>
            rw [hincp] at h2
            simp only [Option.elim_some] at h2
            have hw : Val.truthy w = true := by
              rw [h2] at hup
              simpa using hup
            have hincd2 : truthyO (alGet inc "doi") = false := by
              cases hincd : alGet inc "doi" with
              | none => rfl
              | some v =>
                rw [hincd] at h1
                simp only [Option.elim_some] at h1
                rw [h1] at hud
                simpa using hud
            have hk2 : some (lowerKey (some w)) = some k := by
              unfold dedupKey at hinc
              rw [if_neg (by rw [hincd2]; exact Bool.false_ne_true), hincp,
                if_pos (by simpa using hw)] at hinc
              exact hinc
            unfold dedupKey
            rw [if_neg hud, h2, if_pos (by simpa using hw)]
            exact hk2
        · have hte : truthyO (alGet ex "title") = true := by
            unfold dedupKey at hex
            rw [if_neg hd, if_neg hp] at hex
            by_contra hcon
            rw [if_neg hcon] at hex
            exact Option.noConfusion hex
          have h3 : alGet (updateEntry ex inc) "title" = alGet ex "title" := by
            rw [hu, if_pos hte]
          have hk2 : some (lowerKey (alGet ex "title")) = some k := by
            unfold dedupKey at hex
            rw [if_neg hd, if_neg hp, if_pos hte] at hex
            exact hex
          unfold dedupKey
          rw [if_neg hud, if_neg hup, h3, if_pos hte]
          exact hk2

theorem isSome_alGet_updateEntry_left (ex inc : Rec) (f : String)
    (h : (alGet ex f).isSome) : (alGet (updateEntry ex inc) f).isSome := by
  rw [alGet_updateEntry, isSome_fieldUpd, h]
  rfl

/-- Invariant of the merge map: every stored record is keyed by its map key
and carries an abstract field. -/
def mapInv (m : MergedMap) : Prop :=
  ∀ q ∈ m, dedupKey q.2 = some q.1 ∧ (alGet q.2 "abstract").isSome

theorem mapInv_mergeStep (m : MergedMap) (e : Rec) (hwf : wfRec e)
    (hm : mapInv m) : mapInv (mergeStep m e) := by
  cases hde : dedupKey e with
  | none =>
    rw [mergeStep_none m e hde]
    exact hm
  | some k =>
    cases hmk : alGet m k with
    | some ex =>
      rw [mergeStep_update m e k ex hde hmk]
      intro q hq
      rcases mem_alSet m k _ q hq with h | h
      · exact hm q h
      · have hex := hm (k, ex) (alGet_some_mem m k ex hmk)
        rw [h]
        exact ⟨dedupKey_updateEntry ex e k hwf hex.1 hde,
          isSome_alGet_updateEntry_left ex e "abstract" hex.2⟩
    | none =>
      rw [mergeStep_new m e k hde hmk]
      intro q hq
      rcases mem_alSet m k _ q hq with h | h
      · exact hm q h
      · rw [h]
        refine ⟨by rw [dedupKey_newEntry]; exact hde, ?_⟩
        rw [alGet_newEntry]
        simp

theorem mapInv_foldl (A : List Rec) (m : MergedMap)
    (hA : ∀ e ∈ A, wfRec e) (hm : mapInv m) : mapInv (A.foldl mergeStep m) := by
  induction A generalizing m with
  | nil => exact hm
  | cons e rest ih =>
    exact ih (mergeStep m e) (fun x hx => hA x (List.mem_cons_of_mem e hx))
      (mapInv_mergeStep m e (hA e (List.mem_cons_self e rest)) hm)

theorem newEntry_of_abstract_isSome (r : Rec) (h : (alGet r "abstract").isSome) :
    newEntry r = r := by
  obtain ⟨v, hv⟩ := Option.isSome_iff_exists.1 h
  unfold newEntry getDefault
  rw [hv]
  exact alSet_self r "abstract" v hv

/-- Folding the values of a keyed, duplicate-free map into a map where all
those keys are fresh just re-creates the entries in order. -/
theorem foldl_mergeStep_fresh (l : List (String × Rec)) (acc : MergedMap)
    (hnd : (alKeys l).Nodup)
    (hv : ∀ q ∈ l, dedupKey q.2 = some q.1)
    (hfresh : ∀ q ∈ l, alGet acc q.1 = none) :
    (l.map Prod.snd).foldl mergeStep acc =
      acc ++ l.map (fun q => (q.1, newEntry q.2)) := by
  induction l generalizing acc with
  | nil => simp
  | cons q t ih =>
    obtain ⟨k, v⟩ := q
    simp only [List.map_cons, List.foldl_cons]
    have hq : dedupKey v = some k := hv (k, v) (List.mem_cons_self _ _)
    have hfr : alGet acc k = none := hfresh (k, v) (List.mem_cons_self _ _)
    have hknm : k ∉ alKeys acc := by
      intro hmem
      have := alGet_isSome_of_mem acc k hmem
      rw [hfr] at this
      simp at this
    simp only [alKeys_cons, List.nodup_cons] at hnd
    have hfresh2 : ∀ q2 ∈ t, alGet (acc ++ [(k, newEntry v)]) q2.1 = none := by
      intro q2 hq2
      rw [alGet_append, hfresh q2 (List.mem_cons_of_mem _ hq2)]
      have hqk : ¬ k = q2.1 := by
        intro hkq
        exact hnd.1 (hkq ▸ mem_alKeys_of_mem t q2 hq2)
      simp [alGet, hqk]
    rw [mergeStep_new acc v k hq hfr, alSet_not_mem acc k _ hknm,
      ih (acc ++ [(k, newEntry v)]) hnd.2
        (fun q2 hq2 => hv q2 (List.mem_cons_of_mem _ hq2)) hfresh2]
    simp

/-- Re-merging the merged output with the empty list reproduces it. -/
theorem merge_remerge_nil (A B : List Rec) (hwf : ∀ r ∈ A ++ B, wfRec r) :
    merge_and_deduplicate (merge_and_deduplicate A B) [] =
      merge_and_deduplicate A B := by
  have hinv : mapInv ((A ++ B).foldl mergeStep []) :=
    mapInv_foldl (A ++ B) [] hwf (by intro q hq; simp at hq)
  have hnd : (alKeys ((A ++ B).foldl mergeStep [])).Nodup :=
    alKeys_foldl_mergeStep_nodup (A ++ B) [] (by simp)
  conv_lhs => unfold merge_and_deduplicate
  rw [List.append_nil]
  unfold merge_and_deduplicate
  rw [foldl_mergeStep_fresh ((A ++ B).foldl mergeStep []) [] hnd
    (fun q hq => (hinv q hq).1) (fun q hq => rfl)]
  rw [List.nil_append, List.map_map]
  apply List.map_congr_left
  intro q hq
  simp only [Function.comp_apply]
  exact newEntry_of_abstract_isSome q.2 (hinv q hq).2

theorem updFold_alGet (l : List Rec) (x : Rec) (f : String) :
    alGet (l.foldl updateEntry x) f =
      fieldUpd (alGet x f) ((l.map (fun e => valsOf e f)).flatten) := by
  induction l generalizing x with
  | nil => simp
  | cons e t ih =>
    rw [List.foldl_cons, ih, alGet_updateEntry, List.map_cons, List.flatten_cons,
      fieldUpd_append]

theorem valsOf_ne_nil_of_mem (r : Rec) (f : String) (h : f ∈ alKeys r) :
    valsOf r f ≠ [] := by
  induction r with
  | nil => simp at h
  | cons p rest ih =>
    by_cases hp : p.1 = f
    · rw [valsOf_cons, if_pos hp]
      exact List.cons_ne_nil _ _
    · rw [valsOf_cons, if_neg hp]
      rcases List.mem_cons.1 h with h | h
      · exact absurd h.symm hp
      · exact ih h

theorem isSome_alGet_updateEntry_right (ex inc : Rec) (f : String)
    (h : f ∈ alKeys inc) : (alGet (updateEntry ex inc) f).isSome := by
  rw [alGet_updateEntry, isSome_fieldUpd]
  have := valsOf_ne_nil_of_mem inc f h
  cases hv : valsOf inc f with
  | nil => exact absurd hv this
  | cons a l => simp

theorem alKeys_updateEntry_covered (ex inc : Rec)
    (h : ∀ kk ∈ alKeys inc, kk ∈ alKeys ex) :
    alKeys (updateEntry ex inc) = alKeys ex := by
  induction inc generalizing ex with
  | nil => rfl
  | cons p rest ih =>
    rw [updateEntry_cons]
    have hp1 : p.1 ∈ alKeys ex := h p.1 (List.mem_cons_self _ _)
    by_cases ht : truthyO (alGet ex p.1) = true
    · rw [if_pos ht]
      exact ih ex (fun kk hk => h kk (List.mem_cons_of_mem _ hk))
    · rw [if_neg ht]
      rw [ih (alSet ex p.1 p.2) (fun kk hk => by
        rw [alKeys_alSet_mem ex p.1 p.2 hp1]
        exact h kk (List.mem_cons_of_mem _ hk))]
      exact alKeys_alSet_mem ex p.1 p.2 hp1

theorem updFold_isSome (l : List Rec) (x : Rec) (f : String)
    (h : (alGet x f).isSome ∨ ∃ e ∈ l, f ∈ alKeys e) :
    (alGet (l.foldl updateEntry x) f).isSome := by
  induction l generalizing x with
  | nil =>
    rcases h with h | h
    · exact h
    · obtain ⟨e, he, _⟩ := h
      simp at he
  | cons e t ih =>
    rw [List.foldl_cons]
    rcases h with h | h
    · exact ih (updateEntry x e) (Or.inl (isSome_alGet_updateEntry_left x e f h))
    · obtain ⟨e2, he2, hf⟩ := h
      rcases List.mem_cons.1 he2 with he2 | he2
      · exact ih (updateEntry x e)
          (Or.inl (he2 ▸ isSome_alGet_updateEntry_right x e f (he2 ▸ hf)))
      · exact ih (updateEntry x e) (Or.inr ⟨e2, he2, hf⟩)

theorem updFold_keys_eq (l : List Rec) (x : Rec)
    (h : ∀ e ∈ l, ∀ kk ∈ alKeys e, (alGet x kk).isSome) :
    alKeys (l.foldl updateEntry x) = alKeys x := by
  induction l generalizing x with
  | nil => rfl
  | cons e t ih =>
    rw [List.foldl_cons]
    have hcov : alKeys (updateEntry x e) = alKeys x :=
      alKeys_updateEntry_covered x e
        (fun kk hk => mem_of_alGet_isSome x kk (h e (List.mem_cons_self _ _) kk hk))
    rw [ih (updateEntry x e) (fun e2 he2 kk hk =>
      isSome_alGet_updateEntry_left x e kk (h e2 (List.mem_cons_of_mem _ he2) kk hk)),
      hcov]

theorem alKeys_updateEntry_nodup (ex inc : Rec) (h : (alKeys ex).Nodup) :
    (alKeys (updateEntry ex inc)).Nodup := by
  induction inc generalizing ex with
  | nil => exact h
  | cons p rest ih =>
    rw [updateEntry_cons]
    by_cases ht : truthyO (alGet ex p.1) = true
    · rw [if_pos ht]
      exact ih ex h
    · rw [if_neg ht]
      exact ih (alSet ex p.1 p.2) (alKeys_alSet_nodup ex p.1 p.2 h)

theorem updFold_nodup (l : List Rec) (x : Rec) (h : (alKeys x).Nodup) :
    (alKeys (l.foldl updateEntry x)).Nodup := by
  induction l generalizing x with
  | nil => exact h
  | cons e t ih => exact ih (updateEntry x e) (alKeys_updateEntry_nodup x e h)

theorem isSome_alGet_newEntry_of_mem (g : Rec) (kk : String) (h : kk ∈ alKeys g) :
    (alGet (newEntry g) kk).isSome := by
  rw [alGet_newEntry]
  by_cases hab : kk = "abstract"
  · rw [if_pos hab]
    rfl
  · rw [if_neg hab]
    exact alGet_isSome_of_mem g kk h

/-- Re-applying a falsy-overwrite value sequence to its own fold result is a
no-op. -/
theorem fieldUpd_refold (b : Option Val) (l1 l2 : List Val)
    (hb : truthyO b = false)
    (hl : ∀ v ∈ l1 ++ l2, Val.truthy v = false)
    (hl1 : l1 = [] ∨ ∃ u, l1 = [u] ∧ b = some u) :
    fieldUpd (fieldUpd b l2) (l1 ++ l2) = fieldUpd b l2 := by
  have hl2 : ∀ v ∈ l2, Val.truthy v = false :=
    fun v hv => hl v (List.mem_append_right l1 hv)
  have hany : l2.any Val.truthy = false := by
    cases hx : l2.any Val.truthy with
    | false => rfl
    | true =>
      obtain ⟨v, hv, htv⟩ := List.any_eq_true.1 hx
      rw [hl2 v hv] at htv
      exact absurd htv (by simp)
  have hwf : truthyO (fieldUpd b l2) = false := by
    rw [truthyO_fieldUpd, hb, hany]
    rfl
  have hw : fieldUpd b l2 = (l2.getLast?).elim b some := fieldUpd_all_falsy b l2 hl2 hb
  rw [fieldUpd_all_falsy _ _ hl hwf]
  cases l2 with
  | cons y ys =>
    rw [List.getLast?_append_of_ne_nil _ (List.cons_ne_nil y ys)]
    cases hgl : (y :: ys).getLast? with
    | none =>
      rw [List.getLast?_eq_none_iff] at hgl
      exact absurd hgl (List.cons_ne_nil y ys)
    | some z =>
      rw [hw, hgl]
      rfl
  | nil =>
    rw [List.append_nil, hw]
    simp only [List.getLast?_nil, Option.elim_none]
    rcases hl1 with h1 | ⟨u, h1, hbu⟩
    · rw [h1]
      rfl
    · rw [h1, hbu]
      rfl

/-- Re-folding a key group onto its own fold result changes nothing. -/
theorem updFold_refold (g : Rec) (gs : List Rec) (hg : wfRec g)
    (hgs : ∀ e ∈ gs, wfRec e) :
    (g :: gs).foldl updateEntry (gs.foldl updateEntry (newEntry g)) =
      gs.foldl updateEntry (newEntry g) := by
  have hwkeys : ∀ e ∈ g :: gs, ∀ kk ∈ alKeys e,
      (alGet (gs.foldl updateEntry (newEntry g)) kk).isSome := by
    intro e he kk hk
    rcases List.mem_cons.1 he with he | he
    · exact updFold_isSome gs (newEntry g) kk
        (Or.inl (isSome_alGet_newEntry_of_mem g kk (he ▸ hk)))
    · exact updFold_isSome gs (newEntry g) kk (Or.inr ⟨e, he, hk⟩)
  have hndw : (alKeys (gs.foldl updateEntry (newEntry g))).Nodup := by
    apply updFold_nodup
    unfold newEntry
    exact alKeys_alSet_nodup g "abstract" _ hg
  have hkeys : alKeys ((g :: gs).foldl updateEntry (gs.foldl updateEntry (newEntry g))) =
      alKeys (gs.foldl updateEntry (newEntry g)) :=
    updFold_keys_eq (g :: gs) (gs.foldl updateEntry (newEntry g)) hwkeys
  apply alExt _ _ (by rw [hkeys]; exact hndw) hkeys
  intro f
  rw [updFold_alGet (g :: gs) _ f, List.map_cons, List.flatten_cons]
  by_cases htw : truthyO (alGet (gs.foldl updateEntry (newEntry g)) f) = true
  · exact fieldUpd_of_truthy _ _ htw
  · have htw2 : truthyO (alGet (gs.foldl updateEntry (newEntry g)) f) = false := by
      simpa using htw
    have hw : alGet (gs.foldl updateEntry (newEntry g)) f =
        fieldUpd (alGet (newEntry g) f) ((gs.map (fun e => valsOf e f)).flatten) :=
      updFold_alGet gs (newEntry g) f
    have hsum := truthyO_fieldUpd (alGet (newEntry g) f) ((gs.map (fun e => valsOf e f)).flatten)
    rw [← hw, htw2] at hsum
    have hb : truthyO (alGet (newEntry g) f) = false := by
      cases hx : truthyO (alGet (newEntry g) f) with
      | false => rfl
      | true => rw [hx] at hsum; simp at hsum
    have hany : ((gs.map (fun e => valsOf e f)).flatten).any Val.truthy = false := by
      cases hx : ((gs.map (fun e => valsOf e f)).flatten).any Val.truthy with
      | false => rfl
      | true => rw [hx] at hsum; simp at hsum
    have hjfalsy : ∀ v ∈ (gs.map (fun e => valsOf e f)).flatten, Val.truthy v = false := by
      intro v hv
      cases hx : Val.truthy v with
      | false => rfl
      | true =>
        have hc : ((gs.map (fun e => valsOf e f)).flatten).any Val.truthy = true :=
          List.any_eq_true.2 ⟨v, hv, hx⟩
        rw [hany] at hc
        exact absurd hc (by simp)
    have hgfalsy : ∀ v ∈ valsOf g f, Val.truthy v = false := by
      intro v hv
      rw [valsOf_wf g f hg] at hv
      cases hgf : alGet g f with
      | none => rw [hgf] at hv; simp at hv
      | some u =>
        rw [hgf] at hv
        simp only [Option.elim_some, List.mem_singleton] at hv
        subst hv
        by_cases hab : f = "abstract"
        · have hng : alGet (newEntry g) f = some (getDefault g "abstract") := by
            rw [alGet_newEntry, if_pos hab]
          rw [hng, truthyO_some, truthy_getDefault, ← hab, hgf] at hb
          simpa using hb
        · have hng : alGet (newEntry g) f = alGet g f := by
            rw [alGet_newEntry, if_neg hab]
          rw [hng, hgf] at hb
          simpa using hb
    have hl : ∀ v ∈ valsOf g f ++ (gs.map (fun e => valsOf e f)).flatten,
        Val.truthy v = false := by
      intro v hv
      rcases List.mem_append.1 hv with hv | hv
      · exact hgfalsy v hv
      · exact hjfalsy v hv
    have hl1 : valsOf g f = [] ∨
        ∃ u, valsOf g f = [u] ∧ alGet (newEntry g) f = some u := by
      rw [valsOf_wf g f hg]
      cases hgf : alGet g f with
      | none => left; rfl
      | some u =>
        right
        refine ⟨u, rfl, ?_⟩
        by_cases hab : f = "abstract"
        · rw [alGet_newEntry, if_pos hab]
          unfold getDefault
          rw [← hab, hgf]
          rfl
        · rw [alGet_newEntry, if_neg hab, hgf]
    rw [hw]
    exact fieldUpd_refold (alGet (newEntry g) f) (valsOf g f)
      ((gs.map (fun e => valsOf e f)).flatten) hb hl hl1

/-- Merging a list with itself gives the same result as merging it with the
empty list. -/
theorem merge_self (A : List Rec) (hwf : ∀ r ∈ A, wfRec r) :
    merge_and_deduplicate A A = merge_and_deduplicate A [] := by
  unfold merge_and_deduplicate
  rw [List.append_nil, List.foldl_append]
  congr 1
  have hnd : (alKeys (A.foldl mergeStep [])).Nodup :=
    alKeys_foldl_mergeStep_nodup A [] (by simp)
  have hcov : ∀ e ∈ A, ∀ k, dedupKey e = some k →
      k ∈ alKeys (A.foldl mergeStep []) := by
    intro e he k hk
    exact mem_of_alGet_isSome _ _ (isSome_alGet_foldl_mergeStep A [] e k he hk)
  have hkeys : alKeys (A.foldl mergeStep (A.foldl mergeStep [])) =
      alKeys (A.foldl mergeStep []) :=
    alKeys_foldl_mergeStep_covered A _ hcov
  apply alExt _ _ (by rw [hkeys]; exact hnd) hkeys
  intro k
  rw [alGet_foldl_mergeStep A (A.foldl mergeStep []) k,
    alGet_foldl_mergeStep A [] k, alGet_nil]
  cases hG : A.filter (fun e => decide (dedupKey e = some k)) with
  | nil => simp
  | cons g gs =>
    have hmemg : g ∈ A.filter (fun e => decide (dedupKey e = some k)) := by
      rw [hG]
      exact List.mem_cons_self g gs
    have hwfg : wfRec g := hwf g (List.mem_filter.1 hmemg).1
    have hwfgs : ∀ e ∈ gs, wfRec e := by
      intro e he
      have hmeme : e ∈ A.filter (fun e => decide (dedupKey e = some k)) := by
        rw [hG]
        exact List.mem_cons_of_mem g he
      exact hwf e (List.mem_filter.1 hmeme).1
    have hinner : groupFold none (g :: gs) =
        some (gs.foldl updateEntry (newEntry g)) := by
      rw [groupFold_cons, groupFold_some]
    rw [hinner, groupFold_some]
    exact congrArg some (updFold_refold g gs hwfg hwfgs)

/-- C3: merge_and_deduplicate is idempotent: re-merging the merged output
with the empty list reproduces it exactly, and merging a list with itself
yields the same deduplicated list as merging it with the empty list (no
duplicated entries, no field loss).  The hypothesis states that every input
record is a Python dict, i.e. has no duplicate keys. -/
theorem merge_idempotent (A B : List Rec) (hwf : ∀ r ∈ A ++ B, wfRec r) :
    merge_and_deduplicate (merge_and_deduplicate A B) [] =
      merge_and_deduplicate A B ∧
    merge_and_deduplicate A A = merge_and_deduplicate A [] :=
  ⟨merge_remerge_nil A B hwf,
   merge_self A (fun r hr => hwf r (List.mem_append_left B hr))⟩

/-- Witness for C3 at concrete record lists with a doi collision. -/
theorem merge_idempotent_witness :
    merge_and_deduplicate
        (merge_and_deduplicate
          [[("doi", Val.vstr "10.1/A"), ("title", Val.vstr "x")],
           [("pmid", Val.vstr "1"), ("title", Val.vstr "y"), ("abstract", Val.vstr "")]]
          [[("doi", Val.vstr "10.1/a"), ("abstract", Val.vstr "Z")]]) [] =
      merge_and_deduplicate
        [[("doi", Val.vstr "10.1/A"), ("title", Val.vstr "x")],
         [("pmid", Val.vstr "1"), ("title", Val.vstr "y"), ("abstract", Val.vstr "")]]
        [[("doi", Val.vstr "10.1/a"), ("abstract", Val.vstr "Z")]] ∧
    merge_and_deduplicate
        [[("doi", Val.vstr "10.1/A"), ("title", Val.vstr "x")],
         [("pmid", Val.vstr "1"), ("title", Val.vstr "y"), ("abstract", Val.vstr "")]]
        [[("doi", Val.vstr "10.1/A"), ("title", Val.vstr "x")],
         [("pmid", Val.vstr "1"), ("title", Val.vstr "y"), ("abstract", Val.vstr "")]] =
      merge_and_deduplicate
        [[("doi", Val.vstr "10.1/A"), ("title", Val.vstr "x")],
         [("pmid", Val.vstr "1"), ("title", Val.vstr "y"), ("abstract", Val.vstr "")]]
        [] :=
  merge_idempotent
    [[("doi", Val.vstr "10.1/A"), ("title", Val.vstr "x")],
     [("pmid", Val.vstr "1"), ("title", Val.vstr "y"), ("abstract", Val.vstr "")]]
    [[("doi", Val.vstr "10.1/a"), ("abstract", Val.vstr "Z")]]
    (by decide)

end LitAgg
